import Mathlib

/-!
Verification of the hyasynth-engine core against its specification.

This file gives a shallow embedding of the parts of the engine that the
checked claims are about, translated from the Rust sources:

* `src/voice.rs`, `src/voice_allocator.rs` — polyphonic voice pool;
* `src/event.rs`, `src/transport.rs`, `src/scheduler.rs` — musical events
  and the block compiler producing execution plans;
* `src/engine.rs` — the per-block plan executor (modelled as the trace of
  actions it performs);
* `src/graph.rs` — graph structure, Kahn topological sort, the per-voice
  deactivation voting, and the by-id event entry points;
* `src/compile.rs`, `src/state/graph_def.rs` — the declarative graph
  definition and the GraphDef → Graph compiler.

Modelling conventions:
* `f32`/`f64` scalars that the verified code only ever copies verbatim
  (velocities, parameter values, gains) are carried as `Int`; `f64`
  quantities the code computes with (bpm, sample rate, beat positions)
  are outside the embedding, so the scheduler model receives each
  musical event's sample position through an abstract assignment
  function, exactly the value `MusicalTransport::event_sample_position`
  would produce.
* A `dyn Node` DSP instance is abstracted as the log of the calls it has
  received (`set_param`, `start_audio`, `stop_audio`); its audio buffers
  and sample processing are not modelled, and a per-voice node's
  per-block `process` results are abstracted as a `VoiceId → Bool`
  silence report when the deactivation voting is analysed.
* Rust `Vec` is `List`, `u64`/`usize`/`u8`/`u32` are `Nat` (no verified
  code path relies on wrap-around), `HashMap` iteration-independent uses
  are association lists.
-/

/-! ## Voices (`src/voice.rs`) -/

/-- `type VoiceId = usize` -/
abbrev VoiceId := Nat

/-- `Voice` from `src/voice.rs`: one slot of the polyphony pool.
`velocity : Int` stands in for the `f32` the code only copies. -/
structure Voice where
  id : VoiceId
  active : Bool
  note : Nat
  velocity : Int
  gate : Bool
  trigger : Bool
  release : Bool
deriving Repr, DecidableEq

/-- `Voice::new(id)` -/
def Voice.new (id : VoiceId) : Voice :=
  { id := id, active := false, note := 0, velocity := 0,
    gate := false, trigger := false, release := false }

/-- `Voice::clear_triggers` -/
def Voice.clear_triggers (v : Voice) : Voice :=
  { v with trigger := false, release := false }

/-- `Voice::note_on(note, velocity)` -/
def Voice.note_on (v : Voice) (note : Nat) (velocity : Int) : Voice :=
  { v with
      active := true
      note := note
      velocity := velocity
      gate := true
      trigger := true
      release := false }

/-- `Voice::note_off` -/
def Voice.note_off (v : Voice) : Voice :=
  { v with gate := false, release := true }

/-- `Voice::deactivate` -/
def Voice.deactivate (v : Voice) : Voice :=
  { v with active := false, gate := false, trigger := false, release := false }

/-! ## Voice allocator (`src/voice_allocator.rs`) -/

/-- `VoiceAllocator`: a fixed pool of voices. -/
structure VoiceAllocator where
  voices : List Voice
deriving Repr, DecidableEq

/-- `VoiceAllocator::new(max_voices)`: slots `0..max_voices`. -/
def VoiceAllocator.new (max_voices : Nat) : VoiceAllocator :=
  ⟨(List.range max_voices).map Voice.new⟩

/-- `self.voices.iter_mut().find(|v| !v.active)` followed by `v.note_on(...)`:
walk the pool, switch on the first inactive slot, return its id.
`none` when every slot is active. -/
def noteOnFirstInactive : List Voice → Nat → Int → Option (VoiceId × List Voice)
  | [], _, _ => none
  | v :: rest, note, vel =>
    if !v.active then some (v.id, v.note_on note vel :: rest)
    else (noteOnFirstInactive rest note vel).map (fun r => (r.1, v :: r.2))

/-- `VoiceAllocator::note_on(note, velocity)`: first inactive slot, else
steal `voices.first_mut()` (slot 0); `None` only on an empty pool.
Returns the updated allocator and the returned `Option<VoiceId>`. -/
def VoiceAllocator.note_on (a : VoiceAllocator) (note : Nat) (vel : Int) :
    VoiceAllocator × Option VoiceId :=
  match noteOnFirstInactive a.voices note vel with
  | some r => (⟨r.2⟩, some r.1)
  | none =>
    match a.voices with
    | [] => (a, none)
    | v :: rest => (⟨v.note_on note vel :: rest⟩, some v.id)

/-- `self.voices.iter_mut().find(|v| v.active && v.gate && v.note == note)`
followed by `v.note_off()`: release the first matching slot, leave the
rest untouched. -/
def noteOffFirstMatch : List Voice → Nat → List Voice
  | [], _ => []
  | v :: rest, note =>
    if v.active && v.gate && (v.note == note) then v.note_off :: rest
    else v :: noteOffFirstMatch rest note

/-- `VoiceAllocator::note_off(note)` -/
def VoiceAllocator.note_off (a : VoiceAllocator) (note : Nat) : VoiceAllocator :=
  ⟨noteOffFirstMatch a.voices note⟩

/-- `VoiceAllocator::deactivate(voice_id)`: `voices.get_mut(voice_id)`
indexes the pool by slot position. -/
def VoiceAllocator.deactivate (a : VoiceAllocator) (voice_id : VoiceId) : VoiceAllocator :=
  match a.voices[voice_id]? with
  | some v => ⟨a.voices.set voice_id v.deactivate⟩
  | none => a

/-- `VoiceAllocator::clear_triggers` -/
def VoiceAllocator.clear_triggers (a : VoiceAllocator) : VoiceAllocator :=
  ⟨a.voices.map Voice.clear_triggers⟩

/-- `VoiceAllocator::active_count` -/
def VoiceAllocator.active_count (a : VoiceAllocator) : Nat :=
  (a.voices.filter (fun v => v.active)).length

/-! ## Events (`src/event.rs`) -/

/-- `MusicalEvent` (`src/event.rs`): beat-stamped scheduler-side events.
The `f64` beat is carried as an uninterpreted `Int` tag; the transport's
beat-to-sample computation on it is abstracted (see `compile_block`).
`f32` velocities, values and gains are `Int` carriers. -/
inductive MusicalEvent
  | noteOn (beat : Int) (note : Nat) (velocity : Int)
  | noteOff (beat : Int) (note : Nat)
  | noteOnTarget (beat : Int) (node_id : Nat) (note : Nat) (velocity : Int)
  | noteOffTarget (beat : Int) (node_id : Nat) (note : Nat)
  | paramChange (beat : Int) (node_id : Nat) (param_id : Nat) (value : Int)
  | audioStart (beat : Int) (node_id : Nat) (audio_id : Nat)
      (start_sample : Nat) (duration_samples : Nat) (gain : Int)
  | audioStop (beat : Int) (node_id : Nat) (audio_id : Nat)
deriving Repr, DecidableEq

/-- `Event` (`src/event.rs`): engine-side sample-domain events. -/
inductive Event
  | noteOn (note : Nat) (velocity : Int)
  | noteOff (note : Nat)
  | noteOnTarget (node_id : Nat) (note : Nat) (velocity : Int)
  | noteOffTarget (node_id : Nat) (note : Nat)
  | paramChange (node_id : Nat) (param_id : Nat) (value : Int)
  | audioStart (node_id : Nat) (audio_id : Nat)
      (start_sample : Nat) (duration_samples : Nat) (gain : Int)
  | audioStop (node_id : Nat) (audio_id : Nat)
deriving Repr, DecidableEq

/-! ## Execution plans (`src/execution_plan.rs`) -/

/-- `SlicePlan`: a contiguous region of a block; events apply at its
start. -/
structure SlicePlan where
  frame_offset : Nat
  frame_count : Nat
  events : List Event
deriving Repr, DecidableEq

/-- `SlicePlan::new(frame_offset, frame_count)` -/
def SlicePlan.new (frame_offset frame_count : Nat) : SlicePlan :=
  { frame_offset := frame_offset, frame_count := frame_count, events := [] }

/-- `ExecutionPlan`: one block's precompiled work.  The `f64` bpm and
sample-rate fields carry no information the claims mention. -/
structure ExecutionPlan where
  block_start_sample : Nat
  block_frames : Nat
  slices : List SlicePlan
deriving Repr, DecidableEq

/-! ## Scheduler (`src/scheduler.rs`) -/

/-- `Scheduler::compile_event`: strip the beat, keep the payload. -/
def compile_event : MusicalEvent → Option Event
  | .noteOn _ note velocity => some (.noteOn note velocity)
  | .noteOff _ note => some (.noteOff note)
  | .noteOnTarget _ node_id note velocity => some (.noteOnTarget node_id note velocity)
  | .noteOffTarget _ node_id note => some (.noteOffTarget node_id note)
  | .paramChange _ node_id param_id value => some (.paramChange node_id param_id value)
  | .audioStart _ node_id audio_id ss ds gain => some (.audioStart node_id audio_id ss ds gain)
  | .audioStop _ node_id audio_id => some (.audioStop node_id audio_id)

/-- The scheduler's event scratch (`src/scheduler.rs:51-58`): each event
whose sample position lies in `[blockStart, blockStart + blockFrames)`,
paired with that position.  `samplePos` abstracts
`MusicalTransport::event_sample_position`. -/
def eventScratch (samplePos : MusicalEvent → Option Nat)
    (blockStart blockFrames : Nat) (events : List MusicalEvent) :
    List (Nat × MusicalEvent) :=
  events.filterMap (fun e =>
    match samplePos e with
    | some p =>
      if blockStart ≤ p ∧ p < blockStart + blockFrames then some (p, e) else none
    | none => none)

/-- The slice-building `while` loop of `Scheduler::compile_block`
(`src/scheduler.rs:73-116`).  The mutable `event_index` cursor is
rendered by consuming the sorted scratch list; the loop is bounded by
fuel, and the proofs show `blockFrames` iterations always suffice.  The
degenerate `slice_frames == 0` arm attaches the compiled events to the
last already-emitted slice, exactly as the source does. -/
def sliceLoop (blockStart blockFrames : Nat) :
    Nat → Nat → List (Nat × MusicalEvent) → List SlicePlan → List SlicePlan
  | 0, _, _, acc => acc
  | fuel + 1, cursor, remaining, acc =>
    if cursor < blockFrames then
      let cursorSample := blockStart + cursor
      let atCursor := remaining.takeWhile (fun pe => pe.1 == cursorSample)
      let compiled := atCursor.filterMap (fun pe => compile_event pe.2)
      let rest := remaining.dropWhile (fun pe => pe.1 == cursorSample)
      let nextBoundary :=
        match rest.head? with
        | some pe => pe.1 - blockStart
        | none => blockFrames
      let sliceEnd := min nextBoundary blockFrames
      let sliceFrames := sliceEnd - cursor
      if 0 < sliceFrames then
        sliceLoop blockStart blockFrames fuel sliceEnd rest
          (acc ++ [{ frame_offset := cursor, frame_count := sliceFrames, events := compiled }])
      else
        let acc' :=
          if compiled.isEmpty then acc
          else
            match acc.getLast? with
            | some last => acc.dropLast ++ [{ last with events := last.events ++ compiled }]
            | none => acc
        sliceLoop blockStart blockFrames fuel sliceEnd rest acc'
    else acc

/-- `Scheduler::compile_block` (`src/scheduler.rs:33-129`): filter events
to the block window, stable-sort by sample position, emit a single slice
when no event is in the window, otherwise build slices with events at
boundaries.  The transport advance and the handoff publication carry no
state the claims mention. -/
def compile_block (samplePos : MusicalEvent → Option Nat)
    (blockStart blockFrames : Nat) (musicalEvents : List MusicalEvent) :
    ExecutionPlan :=
  let scratch := eventScratch samplePos blockStart blockFrames musicalEvents
  let sorted := scratch.mergeSort (fun a b => decide (a.1 ≤ b.1))
  if sorted.isEmpty then
    { block_start_sample := blockStart, block_frames := blockFrames,
      slices := [SlicePlan.new 0 blockFrames] }
  else
    { block_start_sample := blockStart, block_frames := blockFrames,
      slices := sliceLoop blockStart blockFrames blockFrames 0 sorted [] }

/-- Slices are contiguous from frame `c`, each at least one frame long. -/
def contiguousFrom : Nat → List SlicePlan → Prop
  | _, [] => True
  | c, s :: rest =>
    s.frame_offset = c ∧ 1 ≤ s.frame_count ∧ contiguousFrom (c + s.frame_count) rest

/-! ## Engine (`src/engine.rs`) -/

/-- One observable action of `Engine::process_plan`: an event applied at
a slice boundary, a graph run for one slice, the allocator's one-shot
triggers cleared, or a voice deactivated through the allocator. -/
inductive EngineAction
  | applyEvent (e : Event)
  | graphProcess (frames : Nat) (sliceStart : Nat)
  | clearTriggers
  | deactivate (id : VoiceId)
deriving Repr, DecidableEq

/-- The action trace of `Engine::process_plan` (`src/engine.rs:62-86`):
for each slice in order, apply its events then process the graph for
`frame_count` frames starting at `block_start_sample + frame_offset`;
after all slices, clear the voice triggers once.  The body contains no
call that drains `Graph::voices_to_deactivate` or reaches
`VoiceAllocator::deactivate`, so no `deactivate` action is emitted. -/
def process_plan_trace (plan : ExecutionPlan) : List EngineAction :=
  (plan.slices.map (fun s =>
    s.events.map EngineAction.applyEvent ++
    [EngineAction.graphProcess s.frame_count
      (plan.block_start_sample + s.frame_offset)])).flatten ++
  [EngineAction.clearTriggers]

/-! ## Voice-deactivation voting (`src/graph.rs:500-531`) -/

/-- One processed node as the deactivation vote sees it: whether the node
is per-voice, and — for a per-voice node — whether its `process` call
reported silent for each voice in this block. -/
structure VotingNode where
  perVoice : Bool
  silentFor : VoiceId → Bool

/-- `Vec::swap_remove(i)`: overwrite entry `i` with the last entry and
pop the last. -/
def swapRemove (l : List VoiceId) (i : Nat) : List VoiceId :=
  match l.getLast? with
  | none => l
  | some last => (l.set i last).dropLast

/-- The lifecycle vote of `Graph::process_per_voice_node`
(`src/graph.rs:507-524`) for one voice: a silent report inserts the
voice if absent, a non-silent report swap-removes it if present. -/
def voteUpdate (l : List VoiceId) (voice_id : VoiceId) (silent : Bool) : List VoiceId :=
  if silent then
    if voice_id ∈ l then l else l ++ [voice_id]
  else
    match l.findIdx? (fun v => v == voice_id) with
    | some pos => swapRemove l pos
    | none => l

/-- The deactivation list `Graph::process` accumulates
(`src/graph.rs:326-338` plus `process_per_voice_node`): the list is
cleared, then each node in evaluation order is processed; a per-voice
node casts one vote per active voice (in allocator order), a global node
casts none. -/
def processVotes (nodesInOrder : List VotingNode) (activeVoices : List VoiceId) :
    List VoiceId :=
  nodesInOrder.foldl
    (fun acc node =>
      if node.perVoice then
        activeVoices.foldl (fun acc2 vid => voteUpdate acc2 vid (node.silentFor vid)) acc
      else acc)
    []

/-! ## Graph (`src/graph.rs`) -/

/-- An audio-playback command a node instance received; its DSP effect
is unmodelled. -/
inductive AudioCmd
  | start (audio_id start_sample duration_samples : Nat) (gain : Int)
  | stop (audio_id : Nat)
deriving Repr, DecidableEq

/-- `GraphNode` (`src/graph.rs:150-154`).  The `dyn Node` instance is
abstracted as its node-type id, its polyphony, and the log of `set_param`
and audio calls it has received; `inputs` hold graph indices.  The
`silent` flag and the audio buffers belong to the unmodelled DSP. -/
structure GraphNode where
  typeId : Nat
  perVoice : Bool
  inputs : List Nat
  params : List (Nat × Int)
  audio : List AudioCmd
deriving Repr, DecidableEq

/-- `Graph` (`src/graph.rs:157-178`): nodes, output index, evaluation
order and the session-id map; buffers and scratch are unmodelled DSP
storage, and the `f64` sample rate is dropped. -/
structure Graph where
  nodes : List GraphNode
  output_node : Nat
  max_block : Nat
  max_voices : Nat
  eval_order : List Nat
  id_to_index : List (Nat × Nat)
deriving Repr, DecidableEq

/-- `Graph::new(max_block, max_voices)` -/
def Graph.new (max_block max_voices : Nat) : Graph :=
  { nodes := []
    output_node := 0
    max_block := max_block
    max_voices := max_voices
    eval_order := []
    id_to_index := [] }

/-- `Graph::add_node(factory)` (`src/graph.rs:197-225`): append a node
built from the factory (its type id and polyphony); returns the new
index.  The matching `NodeBuffer` is unmodelled storage. -/
def Graph.add_node (g : Graph) (typeId : Nat) (perVoice : Bool) : Graph × Nat :=
  ({ g with nodes := g.nodes ++ [GraphNode.mk typeId perVoice [] [] []] }, g.nodes.length)

/-- `Graph::connect(src, dst)` (`src/graph.rs:228-232`): push `src` onto
`dst`'s inputs unless already present. -/
def Graph.connect (g : Graph) (src dst : Nat) : Graph :=
  match g.nodes[dst]? with
  | some node =>
    if src ∈ node.inputs then g
    else { g with nodes := g.nodes.set dst { node with inputs := node.inputs ++ [src] } }
  | none => g

/-- `Graph::set_param(node_idx, param_id, value)` (`src/graph.rs:536-540`);
the instance's `set_param` is logged. -/
def Graph.set_param (g : Graph) (node_idx param_id : Nat) (value : Int) : Graph :=
  match g.nodes[node_idx]? with
  | some node =>
    let node2 := { node with params := node.params ++ [(param_id, value)] }
    { g with nodes := g.nodes.set node_idx node2 }
  | none => g

/-- `Graph::set_param_by_id` (`src/graph.rs:545-551`): resolve the session
id through `id_to_index`; an unknown id touches nothing. -/
def Graph.set_param_by_id (g : Graph) (node_id param_id : Nat) (value : Int) : Graph :=
  match g.id_to_index.lookup node_id with
  | some idx => g.set_param idx param_id value
  | none => g

/-- `NodeInstance::start_audio` (`src/graph.rs:101-116`): a global
instance takes the call, a per-voice instance ignores it. -/
def GraphNode.start_audio (node : GraphNode)
    (audio_id start_sample duration_samples : Nat) (gain : Int) : GraphNode :=
  if node.perVoice then node
  else
    { node with audio := node.audio ++ [AudioCmd.start audio_id start_sample duration_samples gain] }

/-- `NodeInstance::stop_audio` (`src/graph.rs:119-126`). -/
def GraphNode.stop_audio (node : GraphNode) (audio_id : Nat) : GraphNode :=
  if node.perVoice then node
  else { node with audio := node.audio ++ [AudioCmd.stop audio_id] }

/-- `Graph::start_audio` (`src/graph.rs:554-566`). -/
def Graph.start_audio (g : Graph)
    (node_idx audio_id start_sample duration_samples : Nat) (gain : Int) : Graph :=
  match g.nodes[node_idx]? with
  | some node =>
    let node2 := node.start_audio audio_id start_sample duration_samples gain
    { g with nodes := g.nodes.set node_idx node2 }
  | none => g

/-- `Graph::start_audio_by_id` (`src/graph.rs:569-580`). -/
def Graph.start_audio_by_id (g : Graph)
    (node_id audio_id start_sample duration_samples : Nat) (gain : Int) : Graph :=
  match g.id_to_index.lookup node_id with
  | some idx => g.start_audio idx audio_id start_sample duration_samples gain
  | none => g

/-- `Graph::stop_audio` (`src/graph.rs:583-587`). -/
def Graph.stop_audio (g : Graph) (node_idx audio_id : Nat) : Graph :=
  match g.nodes[node_idx]? with
  | some node => { g with nodes := g.nodes.set node_idx (node.stop_audio audio_id) }
  | none => g

/-- `Graph::stop_audio_by_id` (`src/graph.rs:590-598`). -/
def Graph.stop_audio_by_id (g : Graph) (node_id audio_id : Nat) : Graph :=
  match g.id_to_index.lookup node_id with
  | some idx => g.stop_audio idx audio_id
  | none => g

/-! ## Topological sort (`src/graph.rs:258-323`) -/

/-- `out_edges[input].push(idx)`: one push into the out-edge table
(`src/graph.rs:274`); out-of-range indexing cannot occur for the graphs
the code builds. -/
def pushOut (acc : List (List Nat)) (input idx : Nat) : List (List Nat) :=
  match acc[input]? with
  | some l => acc.set input (l ++ [idx])
  | none => acc

/-- The inner loop over one node's inputs (`src/graph.rs:273-275`). -/
def addOutEdges (acc : List (List Nat)) (idx : Nat) (inputs : List Nat) : List (List Nat) :=
  inputs.foldl (fun a input => pushOut a input idx) acc

/-- The outer loop over `self.nodes.iter().enumerate()`
(`src/graph.rs:272-276`). -/
def buildOutEdgesAux : List (List Nat) → Nat → List GraphNode → List (List Nat)
  | acc, _, [] => acc
  | acc, idx, node :: rest => buildOutEdgesAux (addOutEdges acc idx node.inputs) (idx + 1) rest

/-- The out-edge table of `Graph::topological_sort`
(`src/graph.rs:270-276`). -/
def buildOutEdges (nodes : List GraphNode) : List (List Nat) :=
  buildOutEdgesAux (List.replicate nodes.length []) 0 nodes

/-- The worklist loop of `Graph::topological_sort`
(`src/graph.rs:286-304`).  `queue` mirrors the Rust `Vec` used as a
stack (pushes append, `pop` takes the last element); `processed` is the
boolean vector.  The loop is bounded by fuel; the initial fuel chosen in
`topological_sort` is shown sufficient in the proofs.  Returns the
result list and the final processed flags.  `readyPush` is the loop's
dependent scan (`src/graph.rs:296-303`): of the popped node's
dependents, those whose inputs are all processed and that are not
themselves processed. -/
def readyPush (nodes : List GraphNode) (outEdges : List (List Nat))
    (processed2 : List Bool) (idx : Nat) : List Nat :=
  ((outEdges[idx]?).getD []).filter (fun dep =>
    (((nodes[dep]?).getD (GraphNode.mk 0 false [] [] [])).inputs.all
      (fun i => (processed2[i]?).getD false)) &&
    !((processed2[dep]?).getD false))

/-- The worklist loop itself; see `readyPush`. -/
def kahnLoop (nodes : List GraphNode) (outEdges : List (List Nat)) :
    Nat → List Nat → List Bool → List Nat → List Nat × List Bool
  | 0, _, processed, result => (result, processed)
  | fuel + 1, queue, processed, result =>
    match queue.getLast? with
    | none => (result, processed)
    | some idx =>
      let rest := queue.dropLast
      if (processed[idx]?).getD false then
        kahnLoop nodes outEdges fuel rest processed result
      else
        let processed2 := processed.set idx true
        let result2 := result ++ [idx]
        kahnLoop nodes outEdges fuel (rest ++ readyPush nodes outEdges processed2 idx)
          processed2 result2

/-- Total input-list length: bounds how many pushes the worklist loop
can ever make. -/
def totalInputs (nodes : List GraphNode) : Nat :=
  (nodes.map (fun nd => nd.inputs.length)).sum

/-- The input list `self.nodes[x].inputs` reads, as the sort reads it
(missing index: no inputs). -/
def inputsOf (nodes : List GraphNode) (x : Nat) : List Nat :=
  ((nodes[x]?).getD (GraphNode.mk 0 false [] [] [])).inputs

/-- `Graph::topological_sort` (`src/graph.rs:258-323`): Kahn's algorithm
with a stack worklist; on a cycle the unprocessed nodes are appended in
index order (next to a `debug_assert`).  When no node is unprocessed the
appended filter is empty, matching the source's `has_cycle` guard. -/
def topological_sort (nodes : List GraphNode) : List Nat :=
  let n := nodes.length
  if n = 0 then []
  else
    let outEdges := buildOutEdges nodes
    let queue0 := (List.range n).filter (fun i =>
      ((nodes[i]?).getD (GraphNode.mk 0 false [] [] [])).inputs.length = 0)
    let r := kahnLoop nodes outEdges
      (queue0.length + n * (totalInputs nodes + 1)) queue0 (List.replicate n false) []
    r.1 ++ (List.range n).filter (fun i => !((r.2[i]?).getD false))

/-- `Graph::prepare(sample_rate)` (`src/graph.rs:235-255`): compute the
evaluation order; the per-node `prepare` calls, the `silent` reset and
the buffer zeroing act on unmodelled DSP state. -/
def Graph.prepare (g : Graph) : Graph :=
  { g with eval_order := topological_sort g.nodes }

/-! ## Graph definition and compiler (`src/state/graph_def.rs`, `src/compile.rs`) -/

/-- `ConnectionDef` (`src/state/graph_def.rs:122-127`). -/
structure ConnectionDef where
  source_node : Nat
  source_port : Nat
  dest_node : Nat
  dest_port : Nat
deriving Repr, DecidableEq

/-- `NodeDef` (`src/state/graph_def.rs:131-146`): id, type and sparse
parameter values; the UI position and label play no role here. -/
structure NodeDef where
  id : Nat
  type_id : Nat
  param_values : List (Nat × Int)
deriving Repr, DecidableEq

/-- `GraphDef` (`src/state/graph_def.rs:180-192`): nodes keyed by id
(the `HashMap` as an association list with distinct keys), ordered
connections, optional output node. -/
structure GraphDef where
  nodes : List (Nat × NodeDef)
  connections : List ConnectionDef
  output_node : Option Nat
deriving Repr, DecidableEq

/-- A node factory as compilation observes it: `polyphony()` decides
per-voice instancing; `create()` and `num_channels()` build unmodelled
DSP state. -/
structure Factory where
  perVoice : Bool

/-- `NodeRegistry::get_factory` (`src/node_factory.rs`): type id to
factory. -/
def NodeRegistry := Nat → Option Factory

/-- `CompileError` (`src/compile.rs:16-22`). -/
inductive CompileError
  | unknownNodeType (node_id type_id : Nat)
  | invalidConnection (source dest : Nat)
deriving Repr, DecidableEq

/-- The node-creation loop of `compile` (`src/compile.rs:67-84`): walk
the sorted ids, look each definition up (the source `unwrap`s — the id
always comes from the key set, so the `none` arm is unreachable), fail
on an unknown type, add the node, record id → index, apply the
definition's parameter values. -/
def createNodes (dnodes : List (Nat × NodeDef)) (registry : NodeRegistry) :
    List Nat → Graph → List (Nat × Nat) → Except CompileError (Graph × List (Nat × Nat))
  | [], g, idToIndex => .ok (g, idToIndex)
  | node_id :: rest, g, idToIndex =>
    match dnodes.lookup node_id with
    | none => .ok (g, idToIndex)
    | some node_def =>
      match registry node_def.type_id with
      | none => .error (.unknownNodeType node_id node_def.type_id)
      | some factory =>
        let r := g.add_node node_def.type_id factory.perVoice
        let g2 := node_def.param_values.foldl (fun gg pv => gg.set_param r.2 pv.1 pv.2) r.1
        createNodes dnodes registry rest g2 (idToIndex ++ [(node_id, r.2)])

/-- Replace (or insert) the binding of `k` in an association list:
`HashMap::entry(k).or_default()` followed by a push is modelled as
rebinding `k` to the grown vector. -/
def updateAssoc (m : List (Nat × List Nat)) (k : Nat) (v : List Nat) : List (Nat × List Nat) :=
  match m.findIdx? (fun kv => kv.1 == k) with
  | some i => m.set i (k, v)
  | none => m ++ [(k, v)]

/-- The connection loop of `compile` (`src/compile.rs:89-113`):
per-destination dedupe through the `connected` map; then resolve both
endpoints (`InvalidConnection` on an unknown id) and add the edge. -/
def connectLoop (idToIndex : List (Nat × Nat)) :
    List ConnectionDef → Graph → List (Nat × List Nat) → Except CompileError Graph
  | [], g, _ => .ok g
  | conn :: rest, g, connected =>
    let sources := (connected.lookup conn.dest_node).getD []
    if conn.source_node ∈ sources then
      connectLoop idToIndex rest g connected
    else
      let connected2 := updateAssoc connected conn.dest_node (sources ++ [conn.source_node])
      match idToIndex.lookup conn.source_node with
      | none => .error (.invalidConnection conn.source_node conn.dest_node)
      | some src_idx =>
        match idToIndex.lookup conn.dest_node with
        | none => .error (.invalidConnection conn.source_node conn.dest_node)
        | some dst_idx =>
          connectLoop idToIndex rest (g.connect src_idx dst_idx) connected2

/-- `compile` (`src/compile.rs:51-126`): create the nodes in sorted-id
order, wire the deduplicated connections, set the output node (the index
the id map gives for `GraphDef::output_node` when that id is known; the
last node when no output id is given and nodes exist).  The function
neither calls `Graph::prepare` (its callers do, with their own sample
rate) nor assigns the returned graph's `id_to_index` field: the id map
used for wiring is a local. -/
def compile (d : GraphDef) (registry : NodeRegistry) (max_block max_voices : Nat) :
    Except CompileError Graph :=
  let node_ids := (d.nodes.map Prod.fst).mergeSort (fun a b => decide (a ≤ b))
  match createNodes d.nodes registry node_ids (Graph.new max_block max_voices) [] with
  | .error e => .error e
  | .ok r =>
    match connectLoop r.2 d.connections r.1 [] with
    | .error e => .error e
    | .ok g2 =>
      match d.output_node with
      | some output_id =>
        match r.2.lookup output_id with
        | some output_idx => .ok { g2 with output_node := output_idx }
        | none => .ok g2
      | none =>
        if node_ids.isEmpty then .ok g2
        else .ok { g2 with output_node := g2.nodes.length - 1 }

/-- The concrete two-node patch used to evaluate `compile` at one input:
node 0 feeding node 1, both of registered type 1, with node 1 declared
as the output. -/
def cdef : GraphDef :=
  { nodes := [(0, NodeDef.mk 0 1 []), (1, NodeDef.mk 1 1 [])]
    connections := [ConnectionDef.mk 0 0 1 0]
    output_node := some 1 }

/-- The registry for `cdef`: only type 1, a global node type. -/
def creg : NodeRegistry := fun t => if t = 1 then some (Factory.mk false) else none

/-! ## Theorems -/

/-- Helper: `noteOnFirstInactive` yields `none` exactly when every slot is
active. -/
theorem noteOnFirstInactive_eq_none {vs : List Voice} {note : Nat} {vel : Int} :
    noteOnFirstInactive vs note vel = none ↔ ∀ v ∈ vs, v.active := by
  induction vs with
  | nil => simp [noteOnFirstInactive]
  | cons v rest ih =>
    rw [noteOnFirstInactive]
    cases hv : v.active with
    | true => simp [hv, Option.map_eq_none', ih]
    | false => simp [hv]

/-- Helper: on success, `noteOnFirstInactive` switches exactly the first
inactive slot. -/
theorem noteOnFirstInactive_eq_some {vs : List Voice} {note : Nat} {vel : Int}
    {i : VoiceId} {vs' : List Voice}
    (h : noteOnFirstInactive vs note vel = some (i, vs')) :
    ∃ k v, vs[k]? = some v ∧ v.active = false ∧
      (∀ j, j < k → ∀ w, vs[j]? = some w → w.active = true) ∧
      i = v.id ∧ vs' = vs.set k (v.note_on note vel) := by
  induction vs generalizing vs' with
  | nil => simp [noteOnFirstInactive] at h
  | cons v rest ih =>
    rw [noteOnFirstInactive] at h
    cases hv : v.active with
    | true =>
      rw [hv] at h
      simp only [Bool.not_true, Bool.false_eq_true, if_false] at h
      rcases Option.map_eq_some'.mp h with ⟨⟨i0, rest'⟩, hrec, heq⟩
      obtain ⟨rfl, rfl⟩ : i0 = i ∧ v :: rest' = vs' := by
        constructor <;> simp_all
      rcases ih hrec with ⟨k, w, hget, hact, hbefore, hid, hset⟩
      refine ⟨k + 1, w, by simpa using hget, hact, ?_, hid, by simp [hset]⟩
      intro j hj u hu
      cases j with
      | zero =>
        have hvu : v = u := by simpa using hu
        rw [← hvu]; exact hv
      | succ j' => exact hbefore j' (Nat.lt_of_succ_lt_succ hj) u (by simpa using hu)
    | false =>
      rw [hv] at h
      simp only [Bool.not_false, if_true, Option.some.injEq, Prod.mk.injEq] at h
      refine ⟨0, v, by simp, hv, ?_, h.1.symm, by simp [h.2.symm]⟩
      intro j hj
      exact absurd hj (Nat.not_lt_zero j)

/-- Helper: switching one slot on preserves pool length. -/
theorem noteOnFirstInactive_length {vs : List Voice} {note : Nat} {vel : Int}
    {i : VoiceId} {vs' : List Voice}
    (h : noteOnFirstInactive vs note vel = some (i, vs')) :
    vs'.length = vs.length := by
  rcases noteOnFirstInactive_eq_some h with ⟨k, v, _, _, _, _, hset⟩
  simp [hset]

/-- Claim C5: `note_on` allocates the first inactive slot when one exists
and otherwise steals slot 0, setting `active`, `gate`, `trigger`,
clearing `release`, and storing the note and velocity on the chosen
slot; the number of active voices never exceeds the pool size.  The
stated three-note scenario on a two-voice pool is checked as the closed
final conjunct. -/
theorem voiceAllocator_note_on_spec (a : VoiceAllocator) (note : Nat) (vel : Int)
    (hpool : 1 ≤ a.voices.length) :
    (let r := a.note_on note vel
     r.1.voices.length = a.voices.length ∧
     r.1.active_count ≤ a.voices.length ∧
     ∃ k v, a.voices[k]? = some v ∧ r.2 = some v.id ∧
       r.1.voices = a.voices.set k (v.note_on note vel) ∧
       r.1.voices[k]? = some
         { id := v.id, active := true, note := note, velocity := vel,
           gate := true, trigger := true, release := false } ∧
       ((v.active = false ∧ ∀ j, j < k → ∀ w, a.voices[j]? = some w → w.active = true) ∨
        (k = 0 ∧ ∀ w ∈ a.voices, w.active = true))) ∧
    (let s0 := VoiceAllocator.new 2
     let s1 := (s0.note_on 60 1).1
     let s2 := (s1.note_on 62 1).1
     let s3 := (s2.note_on 64 1).1
     s3.active_count = 2 ∧
     (∃ w, s2.voices[0]? = some w ∧ w.note = 60 ∧ w.active = true) ∧
     (∃ w, s3.voices[0]? = some w ∧ w.note = 64 ∧ w.active = true)) := by
  constructor
  · show (let r := a.note_on note vel; _)
    simp only
    have hcount : ∀ b : VoiceAllocator, b.active_count ≤ b.voices.length := by
      intro b
      exact List.length_filter_le _ _
    unfold VoiceAllocator.note_on
    cases hfind : noteOnFirstInactive a.voices note vel with
    | some r =>
      rcases r with ⟨i, vs'⟩
      rcases noteOnFirstInactive_eq_some hfind with ⟨k, v, hget, hact, hbefore, hid, hset⟩
      have hk : k < a.voices.length := by
        by_contra hk
        simp [List.getElem?_eq_none (Nat.le_of_not_lt hk)] at hget
      have hlen : vs'.length = a.voices.length := by simp [hset]
      refine ⟨hlen, ?_, k, v, hget, by simp [hid], by simpa using hset, ?_, Or.inl ⟨hact, hbefore⟩⟩
      · have := hcount ⟨vs'⟩
        simpa [hlen] using this
      · simp [hset, List.getElem?_set_self hk, Voice.note_on]
    | none =>
      cases hvs : a.voices with
      | nil => rw [hvs] at hpool; simp at hpool
      | cons v rest =>
        have hall : ∀ w ∈ a.voices, w.active = true :=
          noteOnFirstInactive_eq_none.mp hfind
        rw [hvs] at hall
        refine ⟨by simp [hvs], ?_, 0, v, by simp [hvs], rfl, by simp [hvs], ?_, Or.inr ⟨rfl, hall⟩⟩
        · have := hcount ⟨v.note_on note vel :: rest⟩
          simpa [hvs] using this
        · simp [hvs, Voice.note_on]
  · decide

/-- Witness for C5 at a concrete pool of size two. -/
theorem voiceAllocator_note_on_spec_witness :
    1 ≤ (VoiceAllocator.new 2).voices.length ∧
    (let r := (VoiceAllocator.new 2).note_on 60 1
     r.1.voices.length = (VoiceAllocator.new 2).voices.length ∧
     r.1.active_count ≤ (VoiceAllocator.new 2).voices.length ∧
     ∃ k v, (VoiceAllocator.new 2).voices[k]? = some v ∧ r.2 = some v.id ∧
       r.1.voices = (VoiceAllocator.new 2).voices.set k (v.note_on 60 1) ∧
       r.1.voices[k]? = some
         { id := v.id, active := true, note := 60, velocity := 1,
           gate := true, trigger := true, release := false } ∧
       ((v.active = false ∧
          ∀ j, j < k → ∀ w, (VoiceAllocator.new 2).voices[j]? = some w → w.active = true) ∨
        (k = 0 ∧ ∀ w ∈ (VoiceAllocator.new 2).voices, w.active = true))) :=
  ⟨by decide, (voiceAllocator_note_on_spec (VoiceAllocator.new 2) 60 1 (by decide)).1⟩

/-- Helper: when no slot matches, `noteOffFirstMatch` returns the pool
unchanged. -/
theorem noteOffFirstMatch_no_match {vs : List Voice} {note : Nat}
    (h : ∀ v ∈ vs, ¬(v.active = true ∧ v.gate = true ∧ v.note = note)) :
    noteOffFirstMatch vs note = vs := by
  induction vs with
  | nil => rfl
  | cons v rest ih =>
    rw [noteOffFirstMatch]
    have hv : (v.active && v.gate && (v.note == note)) = false := by
      have := h v (by simp)
      cases ha : v.active <;> cases hg : v.gate <;> simp_all
    rw [hv]
    simp [ih (fun w hw => h w (by simp [hw]))]

/-- Helper: `noteOffFirstMatch` releases exactly the first matching slot. -/
theorem noteOffFirstMatch_first {vs : List Voice} {note : Nat} {k : Nat} {v : Voice}
    (hget : vs[k]? = some v)
    (hv : v.active = true ∧ v.gate = true ∧ v.note = note)
    (hbefore : ∀ j, j < k → ∀ w, vs[j]? = some w →
      ¬(w.active = true ∧ w.gate = true ∧ w.note = note)) :
    noteOffFirstMatch vs note = vs.set k v.note_off := by
  induction vs generalizing k with
  | nil => simp at hget
  | cons u rest ih =>
    cases k with
    | zero =>
      have huv : u = v := by simpa using hget
      subst huv
      rw [noteOffFirstMatch]
      have : (u.active && u.gate && (u.note == note)) = true := by
        simp [hv.1, hv.2.1, hv.2.2]
      rw [this]
      simp
    | succ k' =>
      have hu : ¬(u.active = true ∧ u.gate = true ∧ u.note = note) :=
        hbefore 0 (Nat.succ_pos k') u (by simp)
      have hcond : (u.active && u.gate && (u.note == note)) = false := by
        cases ha : u.active <;> cases hg : u.gate <;> simp_all
      rw [noteOffFirstMatch, hcond]
      simp only [Bool.false_eq_true, if_false, List.set_cons_succ, List.cons.injEq, true_and]
      exact ih (by simpa using hget)
        (fun j hj w hw => hbefore (j + 1) (Nat.succ_lt_succ hj) w (by simpa using hw))

/-- Claim C8: `note_off(note)` releases exactly the first active, gated
slot holding `note` (setting `gate := false`, `release := true`, all
other fields and slots untouched), and is a no-op when no slot matches. -/
theorem voiceAllocator_note_off_spec (a : VoiceAllocator) (note : Nat) :
    (a.note_off note).voices.length = a.voices.length ∧
    ((∀ v ∈ a.voices, ¬(v.active = true ∧ v.gate = true ∧ v.note = note)) →
      a.note_off note = a) ∧
    (∀ k v, a.voices[k]? = some v →
      v.active = true → v.gate = true → v.note = note →
      (∀ j, j < k → ∀ w, a.voices[j]? = some w →
        ¬(w.active = true ∧ w.gate = true ∧ w.note = note)) →
      (a.note_off note).voices =
        a.voices.set k { v with gate := false, release := true } ∧
      (∀ j, j ≠ k → (a.note_off note).voices[j]? = a.voices[j]?) ∧
      (a.note_off note).voices[k]? = some
        { id := v.id, active := v.active, note := v.note, velocity := v.velocity,
          gate := false, trigger := v.trigger, release := true }) := by
  refine ⟨?_, ?_, ?_⟩
  · show (noteOffFirstMatch a.voices note).length = a.voices.length
    induction a.voices with
    | nil => rfl
    | cons v rest ih =>
      rw [noteOffFirstMatch]
      cases hc : (v.active && v.gate && (v.note == note)) <;> simp [ih]
  · intro h
    show (⟨noteOffFirstMatch a.voices note⟩ : VoiceAllocator) = a
    rw [noteOffFirstMatch_no_match h]
  · intro k v hget ha hg hn hbefore
    have hk : k < a.voices.length := by
      by_contra hk
      simp [List.getElem?_eq_none (Nat.le_of_not_lt hk)] at hget
    have hmain : (a.note_off note).voices = a.voices.set k v.note_off :=
      noteOffFirstMatch_first hget ⟨ha, hg, hn⟩ hbefore
    refine ⟨by rw [hmain]; rfl, ?_, ?_⟩
    · intro j hj
      rw [hmain, List.getElem?_set_ne (fun h => hj h.symm)]
    · rw [hmain, List.getElem?_set_self hk, Voice.note_off]

/-- Helper: the first element surviving `dropWhile` fails the predicate. -/
theorem dropWhile_head_false {α : Type} {p : α → Bool} {l l' : List α} {b : α}
    (h : l.dropWhile p = b :: l') : p b = false := by
  induction l with
  | nil => simp at h
  | cons a rest ih =>
    rw [List.dropWhile_cons] at h
    cases hp : p a with
    | true =>
      rw [hp] at h
      exact ih (by simpa using h)
    | false =>
      rw [hp] at h
      simp only [Bool.false_eq_true, if_false, List.cons.injEq] at h
      rw [← h.1]
      exact hp

/-- Helper: membership in the scheduler's scratch characterised. -/
theorem mem_eventScratch {samplePos : MusicalEvent → Option Nat}
    {blockStart blockFrames : Nat} {events : List MusicalEvent}
    {p : Nat} {e : MusicalEvent} :
    (p, e) ∈ eventScratch samplePos blockStart blockFrames events ↔
      e ∈ events ∧ samplePos e = some p ∧
        blockStart ≤ p ∧ p < blockStart + blockFrames := by
  unfold eventScratch
  rw [List.mem_filterMap]
  constructor
  · rintro ⟨a, ha, hmatch⟩
    cases hsp : samplePos a with
    | none => rw [hsp] at hmatch; simp at hmatch
    | some q =>
      rw [hsp] at hmatch
      have hmatch2 : (if blockStart ≤ q ∧ q < blockStart + blockFrames
          then some (q, a) else none) = some (p, e) := hmatch
      by_cases hc : blockStart ≤ q ∧ q < blockStart + blockFrames
      · rw [if_pos hc] at hmatch2
        obtain ⟨hq, ha2⟩ : q = p ∧ a = e := by simpa using hmatch2
        subst hq; subst ha2
        exact ⟨ha, hsp, hc.1, hc.2⟩
      · rw [if_neg hc] at hmatch2; simp at hmatch2
  · rintro ⟨he, hsp, h1, h2⟩
    refine ⟨e, he, ?_⟩
    rw [hsp]
    show (if blockStart ≤ p ∧ p < blockStart + blockFrames
        then some (p, e) else none) = some (p, e)
    rw [if_pos ⟨h1, h2⟩]

/-- Helper: positions and offsets of the slices the scheduler loop emits.
The loop invariant: the remaining events are sorted, lie at or after the
cursor and strictly inside the block; the loop then appends slices that
partition the frames from the cursor to the end of the block and places
every compiled event on the slice beginning at its sample position. -/
theorem sliceLoop_spec (blockStart blockFrames : Nat) :
    ∀ (fuel cursor : Nat) (remaining : List (Nat × MusicalEvent)) (acc : List SlicePlan),
      blockFrames - cursor ≤ fuel →
      cursor ≤ blockFrames →
      remaining.Pairwise (fun a b => a.1 ≤ b.1) →
      (∀ pe ∈ remaining, blockStart + cursor ≤ pe.1) →
      (∀ pe ∈ remaining, pe.1 < blockStart + blockFrames) →
      ∃ ns, sliceLoop blockStart blockFrames fuel cursor remaining acc = acc ++ ns ∧
        contiguousFrom cursor ns ∧
        (ns.map SlicePlan.frame_count).sum = blockFrames - cursor ∧
        (∀ s ∈ ns, ∀ ev ∈ s.events, ∃ pe ∈ remaining,
          pe.1 = blockStart + s.frame_offset ∧ compile_event pe.2 = some ev) ∧
        (∀ pe ∈ remaining, ∃ s ∈ ns, blockStart + s.frame_offset = pe.1 ∧
          ∀ ev, compile_event pe.2 = some ev → ev ∈ s.events) := by
  intro fuel
  induction fuel with
  | zero =>
    intro cursor remaining acc hfuel hcur hsorted hlow hhigh
    have hc : cursor = blockFrames := by omega
    have hrem : remaining = [] := by
      cases hr : remaining with
      | nil => rfl
      | cons pe rest =>
        have h1 := hlow pe (by rw [hr]; simp)
        have h2 := hhigh pe (by rw [hr]; simp)
        omega
    subst hc; subst hrem
    exact ⟨[], by simp [sliceLoop], trivial, by simp, by simp, by simp⟩
  | succ fuel ih =>
    intro cursor remaining acc hfuel hcur hsorted hlow hhigh
    rcases Nat.lt_or_ge cursor blockFrames with hguard | hguard
    case inr =>
      have hc : cursor = blockFrames := by omega
      have hrem : remaining = [] := by
        cases hr : remaining with
        | nil => rfl
        | cons pe rest =>
          have h1 := hlow pe (by rw [hr]; simp)
          have h2 := hhigh pe (by rw [hr]; simp)
          omega
      subst hc; subst hrem
      refine ⟨[], ?_, trivial, by simp, by simp, by simp⟩
      rw [sliceLoop, if_neg (by omega)]
      simp
    case inl =>
      have hsplit := @List.takeWhile_append_dropWhile (Nat × MusicalEvent)
        (fun pe : Nat × MusicalEvent => pe.1 == blockStart + cursor) remaining
      have hatpos : ∀ pe ∈ remaining.takeWhile
          (fun pe : Nat × MusicalEvent => pe.1 == blockStart + cursor),
          pe.1 = blockStart + cursor := by
        intro pe hpe
        have := List.mem_takeWhile_imp hpe
        simpa using this
      have hatsub : ∀ pe ∈ remaining.takeWhile
          (fun pe : Nat × MusicalEvent => pe.1 == blockStart + cursor), pe ∈ remaining := by
        intro pe hpe
        exact (List.takeWhile_sublist _).subset hpe
      have hrestsub : ∀ pe ∈ remaining.dropWhile
          (fun pe : Nat × MusicalEvent => pe.1 == blockStart + cursor), pe ∈ remaining := by
        intro pe hpe
        exact (List.dropWhile_sublist _).subset hpe
      have hrestsorted : (remaining.dropWhile
          (fun pe : Nat × MusicalEvent => pe.1 == blockStart + cursor)).Pairwise
          (fun a b => a.1 ≤ b.1) :=
        List.Pairwise.sublist (List.dropWhile_sublist _) hsorted
      cases hrestc : remaining.dropWhile
          (fun pe : Nat × MusicalEvent => pe.1 == blockStart + cursor) with
      | nil =>
        have hstep : sliceLoop blockStart blockFrames (fuel + 1) cursor remaining acc =
            sliceLoop blockStart blockFrames fuel blockFrames
              (remaining.dropWhile (fun pe : Nat × MusicalEvent => pe.1 == blockStart + cursor))
              (acc ++ [SlicePlan.mk cursor (blockFrames - cursor)
                ((remaining.takeWhile
                  (fun pe : Nat × MusicalEvent => pe.1 == blockStart + cursor)).filterMap
                  (fun pe => compile_event pe.2))]) := by
          rw [sliceLoop, if_pos hguard]
          simp only [hrestc, List.head?_nil, Nat.min_self]
          rw [if_pos (by omega)]
        rcases ih blockFrames
            (remaining.dropWhile (fun pe : Nat × MusicalEvent => pe.1 == blockStart + cursor))
            (acc ++ [SlicePlan.mk cursor (blockFrames - cursor)
              ((remaining.takeWhile
                (fun pe : Nat × MusicalEvent => pe.1 == blockStart + cursor)).filterMap
                (fun pe => compile_event pe.2))])
            (by omega) (le_refl _)
            hrestsorted
            (by rw [hrestc]; simp)
            (by rw [hrestc]; simp) with
          ⟨ns', hrun, hcontig', hsum', hsound', hcomplete'⟩
        have hns'nil : ns' = [] := by
          cases hns : ns' with
          | nil => rfl
          | cons s0 rest0 =>
            rw [hns] at hcontig' hsum'
            rcases hcontig' with ⟨_, hcnt, _⟩
            simp at hsum'
            omega
        subst hns'nil
        refine ⟨[SlicePlan.mk cursor (blockFrames - cursor)
          ((remaining.takeWhile
            (fun pe : Nat × MusicalEvent => pe.1 == blockStart + cursor)).filterMap
            (fun pe => compile_event pe.2))], ?_, ?_, ?_, ?_, ?_⟩
        · rw [hstep, hrun]; simp
        · refine ⟨rfl, ?_, trivial⟩
          show 1 ≤ blockFrames - cursor
          omega
        · simp
        · intro s hs ev hev
          have hseq : s = SlicePlan.mk cursor (blockFrames - cursor)
              ((remaining.takeWhile
                (fun pe : Nat × MusicalEvent => pe.1 == blockStart + cursor)).filterMap
                (fun pe => compile_event pe.2)) := by simpa using hs
          subst hseq
          rcases List.mem_filterMap.mp hev with ⟨pe, hpe, hce⟩
          exact ⟨pe, hatsub pe hpe, by simpa using hatpos pe hpe, hce⟩
        · intro pe hpe
          have hpeat : pe ∈ remaining.takeWhile
              (fun pe : Nat × MusicalEvent => pe.1 == blockStart + cursor) := by
            have hor : pe ∈ remaining.takeWhile
                (fun pe : Nat × MusicalEvent => pe.1 == blockStart + cursor) ++
                remaining.dropWhile
                (fun pe : Nat × MusicalEvent => pe.1 == blockStart + cursor) := by
              rw [hsplit]; exact hpe
            rcases List.mem_append.mp hor with h | h
            · exact h
            · rw [hrestc] at h; simp at h
          refine ⟨SlicePlan.mk cursor (blockFrames - cursor)
            ((remaining.takeWhile
              (fun pe : Nat × MusicalEvent => pe.1 == blockStart + cursor)).filterMap
              (fun pe => compile_event pe.2)), by simp, ?_, ?_⟩
          · simpa using (hatpos pe hpeat).symm
          · intro ev hev
            exact List.mem_filterMap.mpr ⟨pe, hpeat, hev⟩
      | cons pe0 rest' =>
        have hpe0mem : pe0 ∈ remaining := hrestsub pe0 (by rw [hrestc]; simp)
        have hpe0low : blockStart + cursor ≤ pe0.1 := hlow pe0 hpe0mem
        have hpe0high : pe0.1 < blockStart + blockFrames := hhigh pe0 hpe0mem
        have hpe0ne := dropWhile_head_false hrestc
        have hpe0gt : blockStart + cursor < pe0.1 := by
          simp only [beq_eq_false_iff_ne, ne_eq] at hpe0ne
          omega
        have hboundlt : pe0.1 - blockStart < blockFrames := by omega
        have hcursorlt : cursor < pe0.1 - blockStart := by omega
        have hstep : sliceLoop blockStart blockFrames (fuel + 1) cursor remaining acc =
            sliceLoop blockStart blockFrames fuel (pe0.1 - blockStart)
              (remaining.dropWhile (fun pe : Nat × MusicalEvent => pe.1 == blockStart + cursor))
              (acc ++ [SlicePlan.mk cursor ((pe0.1 - blockStart) - cursor)
                ((remaining.takeWhile
                  (fun pe : Nat × MusicalEvent => pe.1 == blockStart + cursor)).filterMap
                  (fun pe => compile_event pe.2))]) := by
          rw [sliceLoop, if_pos hguard]
          simp only [hrestc, List.head?_cons]
          rw [Nat.min_eq_left (by omega)]
          rw [if_pos (by omega)]
        have hlow' : ∀ pe ∈ remaining.dropWhile
            (fun pe : Nat × MusicalEvent => pe.1 == blockStart + cursor),
            blockStart + (pe0.1 - blockStart) ≤ pe.1 := by
          intro pe hpe
          have hps : blockStart + (pe0.1 - blockStart) = pe0.1 := by omega
          rw [hps]
          rw [hrestc] at hpe
          rcases List.mem_cons.mp hpe with rfl | hpe'
          · exact le_refl _
          · rw [hrestc] at hrestsorted
            exact (List.pairwise_cons.mp hrestsorted).1 pe hpe'
        rcases ih (pe0.1 - blockStart)
            (remaining.dropWhile (fun pe : Nat × MusicalEvent => pe.1 == blockStart + cursor))
            (acc ++ [SlicePlan.mk cursor ((pe0.1 - blockStart) - cursor)
              ((remaining.takeWhile
                (fun pe : Nat × MusicalEvent => pe.1 == blockStart + cursor)).filterMap
                (fun pe => compile_event pe.2))])
            (by omega) (by omega)
            hrestsorted
            hlow'
            (fun pe hpe => hhigh pe (hrestsub pe hpe)) with
          ⟨ns', hrun, hcontig', hsum', hsound', hcomplete'⟩
        refine ⟨SlicePlan.mk cursor ((pe0.1 - blockStart) - cursor)
          ((remaining.takeWhile
            (fun pe : Nat × MusicalEvent => pe.1 == blockStart + cursor)).filterMap
            (fun pe => compile_event pe.2)) :: ns', ?_, ?_, ?_, ?_, ?_⟩
        · rw [hstep, hrun]; simp
        · refine ⟨rfl, ?_, ?_⟩
          · show 1 ≤ (pe0.1 - blockStart) - cursor
            omega
          · show contiguousFrom (cursor + ((pe0.1 - blockStart) - cursor)) ns'
            have hadd : cursor + ((pe0.1 - blockStart) - cursor) = pe0.1 - blockStart := by omega
            rw [hadd]
            exact hcontig'
        · simp only [List.map_cons, List.sum_cons]
          omega
        · intro s hs ev hev
          rcases List.mem_cons.mp hs with rfl | hs'
          · rcases List.mem_filterMap.mp hev with ⟨pe, hpe, hce⟩
            exact ⟨pe, hatsub pe hpe, by simpa using hatpos pe hpe, hce⟩
          · rcases hsound' s hs' ev hev with ⟨pe, hpe, hp1, hp2⟩
            exact ⟨pe, hrestsub pe hpe, hp1, hp2⟩
        · intro pe hpe
          have hor : pe ∈ remaining.takeWhile
              (fun pe : Nat × MusicalEvent => pe.1 == blockStart + cursor) ++
              remaining.dropWhile
              (fun pe : Nat × MusicalEvent => pe.1 == blockStart + cursor) := by
            rw [hsplit]; exact hpe
          rcases List.mem_append.mp hor with h | h
          · refine ⟨SlicePlan.mk cursor ((pe0.1 - blockStart) - cursor)
              ((remaining.takeWhile
                (fun pe : Nat × MusicalEvent => pe.1 == blockStart + cursor)).filterMap
                (fun pe => compile_event pe.2)), by simp, ?_, ?_⟩
            · simpa using (hatpos pe h).symm
            · intro ev hev
              exact List.mem_filterMap.mpr ⟨pe, h, hev⟩
          · rcases hcomplete' pe h with ⟨s, hs, hsoff, hsev⟩
            exact ⟨s, by simp [hs], hsoff, hsev⟩

/-- Helper: offsets along a contiguous slice list are the partial sums of
the frame counts. -/
theorem contiguousFrom_get {c : Nat} {l : List SlicePlan} (h : contiguousFrom c l) :
    ∀ i (hi : i < l.length),
      (l.get ⟨i, hi⟩).frame_offset = c + ((l.take i).map SlicePlan.frame_count).sum ∧
      1 ≤ (l.get ⟨i, hi⟩).frame_count := by
  induction l generalizing c with
  | nil => intro i hi; simp at hi
  | cons s rest ih =>
    intro i hi
    rcases h with ⟨hoff, hcnt, hrest⟩
    cases i with
    | zero =>
      constructor
      · simpa using hoff
      · simpa using hcnt
    | succ i' =>
      have hi' : i' < rest.length := by simpa using hi
      rcases ih hrest i' hi' with ⟨ho, hc⟩
      constructor
      · simp only [List.get_cons_succ, List.take_succ_cons, List.map_cons, List.sum_cons]
        rw [ho]
        omega
      · simpa using hc

/-- Helper: every slice of a contiguous list sits at or after the start. -/
theorem contiguousFrom_le_offset {c : Nat} {l : List SlicePlan} (h : contiguousFrom c l) :
    ∀ s ∈ l, c ≤ s.frame_offset := by
  induction l generalizing c with
  | nil => simp
  | cons s0 rest ih =>
    rcases h with ⟨hoff, hcnt, hrest⟩
    intro s hs
    rcases List.mem_cons.mp hs with rfl | hs'
    · omega
    · have := ih hrest s hs'
      omega

/-- Helper: in a contiguous slice list, only the head carries the start
offset. -/
theorem contiguousFrom_head_eq {c : Nat} {s0 : SlicePlan} {rest : List SlicePlan}
    (h : contiguousFrom c (s0 :: rest)) {s : SlicePlan} (hs : s ∈ s0 :: rest)
    (hoff : s.frame_offset = c) : s = s0 := by
  rcases h with ⟨hoff0, hcnt, hrest⟩
  rcases List.mem_cons.mp hs with rfl | hs'
  · rfl
  · have := contiguousFrom_le_offset hrest s hs'
    omega

/-- Helper: the sorted scratch is pairwise ordered by sample position and
keeps exactly the scratch's members. -/
theorem sorted_scratch_facts (samplePos : MusicalEvent → Option Nat)
    (blockStart blockFrames : Nat) (events : List MusicalEvent) :
    ((eventScratch samplePos blockStart blockFrames events).mergeSort
        (fun a b => decide (a.1 ≤ b.1))).Pairwise (fun a b => a.1 ≤ b.1) ∧
    ((eventScratch samplePos blockStart blockFrames events).mergeSort
        (fun a b => decide (a.1 ≤ b.1))).Perm
      (eventScratch samplePos blockStart blockFrames events) := by
  constructor
  · have htrans : ∀ a b c : Nat × MusicalEvent,
        decide (a.1 ≤ b.1) = true → decide (b.1 ≤ c.1) = true →
        decide (a.1 ≤ c.1) = true := by
      intro a b c hab hbc
      simp only [decide_eq_true_eq] at hab hbc ⊢
      omega
    have htotal : ∀ a b : Nat × MusicalEvent,
        (decide (a.1 ≤ b.1) || decide (b.1 ≤ a.1)) = true := by
      intro a b
      simp only [Bool.or_eq_true, decide_eq_true_eq]
      omega
    have hs := List.sorted_mergeSort htrans htotal
      (eventScratch samplePos blockStart blockFrames events)
    exact hs.imp (fun h => by simpa using h)
  · exact List.mergeSort_perm _ _

/-- Helper: a contiguous-from-0 slice list whose counts sum to `n` is a
partition: offsets are prefix sums and counts are positive. -/
theorem partition_of_contig {l : List SlicePlan} {n : Nat}
    (hcontig : contiguousFrom 0 l) (hsum : (l.map SlicePlan.frame_count).sum = n) :
    (l.map SlicePlan.frame_count).sum = n ∧
    ∀ i (hi : i < l.length),
      (l.get ⟨i, hi⟩).frame_offset = ((l.take i).map SlicePlan.frame_count).sum ∧
      1 ≤ (l.get ⟨i, hi⟩).frame_count := by
  refine ⟨hsum, ?_⟩
  intro i hi
  have := contiguousFrom_get hcontig i hi
  simpa using this

/-- Claim C1: for `blockFrames ≥ 1` the published plan's slices partition
the block: every slice's frame offset is the sum of the frame counts of
the slices before it (so the first sits at offset 0 and slices are
contiguous), every frame count is at least 1, and the counts sum to
`blockFrames`. -/
theorem compile_block_partitions (samplePos : MusicalEvent → Option Nat)
    (blockStart blockFrames : Nat) (events : List MusicalEvent)
    (hframes : 1 ≤ blockFrames) :
    ((compile_block samplePos blockStart blockFrames events).slices.map
      SlicePlan.frame_count).sum = blockFrames ∧
    ∀ i (hi : i < (compile_block samplePos blockStart blockFrames events).slices.length),
      ((compile_block samplePos blockStart blockFrames events).slices.get
          ⟨i, hi⟩).frame_offset =
        (((compile_block samplePos blockStart blockFrames events).slices.take i).map
          SlicePlan.frame_count).sum ∧
      1 ≤ ((compile_block samplePos blockStart blockFrames events).slices.get
          ⟨i, hi⟩).frame_count := by
  rcases sorted_scratch_facts samplePos blockStart blockFrames events with ⟨hsorted, hperm⟩
  by_cases hemp : ((eventScratch samplePos blockStart blockFrames events).mergeSort
      (fun a b => decide (a.1 ≤ b.1))).isEmpty
  · have hslices : (compile_block samplePos blockStart blockFrames events).slices =
        [SlicePlan.new 0 blockFrames] := by
      unfold compile_block
      rw [if_pos hemp]
    rw [hslices]
    exact partition_of_contig ⟨rfl, hframes, trivial⟩ (by simp [SlicePlan.new])
  · rcases sliceLoop_spec blockStart blockFrames blockFrames 0
        ((eventScratch samplePos blockStart blockFrames events).mergeSort
          (fun a b => decide (a.1 ≤ b.1))) []
        (by omega) (by omega) hsorted
        (by
          intro pe hpe
          rcases pe with ⟨p, e⟩
          have := mem_eventScratch.mp (hperm.mem_iff.mp hpe)
          omega)
        (by
          intro pe hpe
          rcases pe with ⟨p, e⟩
          exact (mem_eventScratch.mp (hperm.mem_iff.mp hpe)).2.2.2) with
      ⟨ns, hrun, hcontig, hsum, _, _⟩
    have hslices : (compile_block samplePos blockStart blockFrames events).slices = ns := by
      unfold compile_block
      rw [if_neg hemp]
      rw [hrun]
      simp
    rw [hslices]
    exact partition_of_contig hcontig (by simpa using hsum)

/-- Witness for C1 at a concrete block of four frames and no events. -/
theorem compile_block_partitions_witness :
    (1 : Nat) ≤ 4 ∧
    (((compile_block (fun _ => none) 0 4 []).slices.map SlicePlan.frame_count).sum = 4 ∧
     ∀ i (hi : i < (compile_block (fun _ => none) 0 4 []).slices.length),
       ((compile_block (fun _ => none) 0 4 []).slices.get ⟨i, hi⟩).frame_offset =
         (((compile_block (fun _ => none) 0 4 []).slices.take i).map
           SlicePlan.frame_count).sum ∧
       1 ≤ ((compile_block (fun _ => none) 0 4 []).slices.get ⟨i, hi⟩).frame_count) :=
  ⟨by omega, compile_block_partitions (fun _ => none) 0 4 [] (by omega)⟩

/-- Claim C2: every event attached to a slice comes from an in-window
musical event whose sample position is `blockStart + frame_offset` of
that slice; conversely every in-window musical event is compiled and
attached to the slice that begins at its sample position, and an event
at `blockStart` lands on the first slice. -/
theorem compile_block_events_at_boundaries (samplePos : MusicalEvent → Option Nat)
    (blockStart blockFrames : Nat) (events : List MusicalEvent) :
    (∀ s ∈ (compile_block samplePos blockStart blockFrames events).slices,
      ∀ ev ∈ s.events, ∃ me ∈ events,
        samplePos me = some (blockStart + s.frame_offset) ∧
        compile_event me = some ev) ∧
    (∀ me ∈ events, ∀ p, samplePos me = some p →
      blockStart ≤ p → p < blockStart + blockFrames →
      ∃ ev, compile_event me = some ev ∧
        ∃ s ∈ (compile_block samplePos blockStart blockFrames events).slices,
          blockStart + s.frame_offset = p ∧ ev ∈ s.events ∧
          (p = blockStart →
            (compile_block samplePos blockStart blockFrames events).slices.head? =
              some s)) := by
  rcases sorted_scratch_facts samplePos blockStart blockFrames events with ⟨hsorted, hperm⟩
  by_cases hemp : ((eventScratch samplePos blockStart blockFrames events).mergeSort
      (fun a b => decide (a.1 ≤ b.1))).isEmpty
  · have hslices : (compile_block samplePos blockStart blockFrames events).slices =
        [SlicePlan.new 0 blockFrames] := by
      unfold compile_block
      rw [if_pos hemp]
    have hscratchnil : eventScratch samplePos blockStart blockFrames events = [] := by
      have hnil : (eventScratch samplePos blockStart blockFrames events).mergeSort
          (fun a b => decide (a.1 ≤ b.1)) = [] := List.isEmpty_iff.mp hemp
      have := hperm
      rw [hnil] at this
      exact this.nil_eq.symm
    constructor
    · intro s hs ev hev
      rw [hslices] at hs
      have hseq : s = SlicePlan.new 0 blockFrames := by simpa using hs
      subst hseq
      simp [SlicePlan.new] at hev
    · intro me hme p hp h1 h2
      exfalso
      have : (p, me) ∈ eventScratch samplePos blockStart blockFrames events :=
        mem_eventScratch.mpr ⟨hme, hp, h1, h2⟩
      rw [hscratchnil] at this
      simp at this
  · rcases sliceLoop_spec blockStart blockFrames blockFrames 0
        ((eventScratch samplePos blockStart blockFrames events).mergeSort
          (fun a b => decide (a.1 ≤ b.1))) []
        (by omega) (by omega) hsorted
        (by
          intro pe hpe
          rcases pe with ⟨p, e⟩
          have := mem_eventScratch.mp (hperm.mem_iff.mp hpe)
          omega)
        (by
          intro pe hpe
          rcases pe with ⟨p, e⟩
          exact (mem_eventScratch.mp (hperm.mem_iff.mp hpe)).2.2.2) with
      ⟨ns, hrun, hcontig, hsum, hsound, hcomplete⟩
    have hslices : (compile_block samplePos blockStart blockFrames events).slices = ns := by
      unfold compile_block
      rw [if_neg hemp]
      rw [hrun]
      simp
    rw [hslices]
    constructor
    · intro s hs ev hev
      rcases hsound s hs ev hev with ⟨pe, hpe, hpos, hce⟩
      rcases pe with ⟨p, me⟩
      have hm := mem_eventScratch.mp (hperm.mem_iff.mp hpe)
      refine ⟨me, hm.1, ?_, hce⟩
      have hpos2 : p = blockStart + s.frame_offset := hpos
      rw [← hpos2]
      exact hm.2.1
    · intro me hme p hp h1 h2
      have hmem : (p, me) ∈ (eventScratch samplePos blockStart blockFrames
          events).mergeSort (fun a b => decide (a.1 ≤ b.1)) :=
        hperm.mem_iff.mpr (mem_eventScratch.mpr ⟨hme, hp, h1, h2⟩)
      rcases hcomplete (p, me) hmem with ⟨s, hs, hsoff, hsev⟩
      have hce : ∃ ev, compile_event me = some ev := by
        cases me <;> exact ⟨_, rfl⟩
      rcases hce with ⟨ev, hce⟩
      refine ⟨ev, hce, s, hs, hsoff, hsev ev hce, ?_⟩
      intro hpstart
      cases hnse : ns with
      | nil => rw [hnse] at hs; simp at hs
      | cons s0 rest =>
        rw [hnse] at hs hcontig
        have hsoff0 : s.frame_offset = 0 := by omega
        have := contiguousFrom_head_eq hcontig hs hsoff0
        rw [this]
        rfl

/-- Helper: every action in the per-slice part of the trace is an event
application or a graph run. -/
theorem mem_slice_trace {plan : ExecutionPlan} {a : EngineAction}
    (ha : a ∈ (plan.slices.map (fun s =>
      s.events.map EngineAction.applyEvent ++
      [EngineAction.graphProcess s.frame_count
        (plan.block_start_sample + s.frame_offset)])).flatten) :
    (∃ e, a = EngineAction.applyEvent e) ∨ ∃ n m, a = EngineAction.graphProcess n m := by
  rcases List.mem_flatten.mp ha with ⟨l, hl, hal⟩
  rcases List.mem_map.mp hl with ⟨s, _, hs⟩
  subst hs
  rcases List.mem_append.mp hal with h | h
  · rcases List.mem_map.mp h with ⟨e, _, he⟩
    exact Or.inl ⟨e, he.symm⟩
  · have : a = EngineAction.graphProcess s.frame_count
        (plan.block_start_sample + s.frame_offset) := by simpa using h
    exact Or.inr ⟨_, _, this⟩

/-- Claim C3 (behaviour of the code at the claimed point): the trace of
`Engine::process_plan` ends with exactly one `clearTriggers`, emitted
after every slice's actions — and contains no `deactivate` action at
all: the engine never drains `Graph::voices_to_deactivate` into
`VoiceAllocator::deactivate`, although the claim (and `src/graph.rs`'s
own doc comments at lines 175-177 and 642-650) say it must. -/
theorem process_plan_trace_no_deactivate (plan : ExecutionPlan) :
    (process_plan_trace plan).count EngineAction.clearTriggers = 1 ∧
    (process_plan_trace plan).getLast? = some EngineAction.clearTriggers ∧
    ∀ id, EngineAction.deactivate id ∉ process_plan_trace plan := by
  refine ⟨?_, ?_, ?_⟩
  · unfold process_plan_trace
    rw [List.count_append]
    have hz : (plan.slices.map (fun s =>
        s.events.map EngineAction.applyEvent ++
        [EngineAction.graphProcess s.frame_count
          (plan.block_start_sample + s.frame_offset)])).flatten.count
          EngineAction.clearTriggers = 0 := by
      rw [List.count_eq_zero]
      intro hmem
      rcases mem_slice_trace hmem with ⟨e, he⟩ | ⟨n, m, hnm⟩ <;> simp_all
    rw [hz]
    rfl
  · unfold process_plan_trace
    rw [List.getLast?_concat]
  · intro id hmem
    unfold process_plan_trace at hmem
    rcases List.mem_append.mp hmem with h | h
    · rcases mem_slice_trace h with ⟨e, he⟩ | ⟨n, m, hnm⟩ <;> simp_all
    · simp at h

/-- Claim C4 (behaviour of the code at the failing input): two per-voice
nodes processed in evaluation order, the first reporting non-silent for
voice 0 and the second reporting silent.  Voice 0 ends the block in the
deactivation list even though the first node voted to keep it: the vote
is last-writer-wins, not the all-agree rule the claim (and the comment
at `src/graph.rs:507-510`) states. -/
theorem processVotes_last_writer_wins :
    processVotes
      [VotingNode.mk true (fun _ => false), VotingNode.mk true (fun _ => true)] [0] = [0] ∧
    (VotingNode.mk true (fun _ => false)).silentFor 0 = false :=
  ⟨rfl, rfl⟩

/-- Helper: `pushOut` keeps the table's length. -/
theorem pushOut_length (acc : List (List Nat)) (input idx : Nat) :
    (pushOut acc input idx).length = acc.length := by
  unfold pushOut
  cases acc[input]? <;> simp

/-- Helper: `pushOut` keeps every existing entry membership. -/
theorem pushOut_mem_mono {acc : List (List Nat)} {input idx d x : Nat}
    (h : x ∈ (acc[d]?).getD []) : x ∈ ((pushOut acc input idx)[d]?).getD [] := by
  unfold pushOut
  cases hl : acc[input]? with
  | none => exact h
  | some l =>
    by_cases hd : input = d
    · subst hd
      have hlt : input < acc.length := by
        by_contra hge
        rw [List.getElem?_eq_none (Nat.le_of_not_lt hge)] at hl
        exact Option.noConfusion hl
      rw [List.getElem?_set_self hlt]
      rw [hl] at h
      simp only [Option.getD_some] at h ⊢
      exact List.mem_append.mpr (Or.inl h)
    · rw [List.getElem?_set_ne hd]
      exact h

/-- Helper: `pushOut` adds `idx` to a present entry. -/
theorem pushOut_mem_self {acc : List (List Nat)} {input idx : Nat}
    (h : input < acc.length) :
    idx ∈ ((pushOut acc input idx)[input]?).getD [] := by
  unfold pushOut
  cases hl : acc[input]? with
  | none =>
    rw [List.getElem?_eq_none_iff] at hl
    omega
  | some l =>
    rw [List.getElem?_set_self h]
    simp

/-- Helper: every member of a `pushOut` entry was there before or is the
pushed index. -/
theorem pushOut_mem_inv {acc : List (List Nat)} {input idx d x : Nat}
    (h : x ∈ ((pushOut acc input idx)[d]?).getD []) :
    x ∈ (acc[d]?).getD [] ∨ x = idx := by
  unfold pushOut at h
  cases hl : acc[input]? with
  | none => rw [hl] at h; exact Or.inl h
  | some l =>
    rw [hl] at h
    by_cases hd : input = d
    · subst hd
      have hlt : input < acc.length := by
        by_contra hge
        rw [List.getElem?_eq_none (Nat.le_of_not_lt hge)] at hl
        exact Option.noConfusion hl
      rw [List.getElem?_set_self hlt] at h
      simp only [Option.getD_some] at h
      rcases List.mem_append.mp h with h2 | h2
      · rw [hl]; exact Or.inl h2
      · simp at h2; exact Or.inr h2
    · rw [List.getElem?_set_ne hd] at h
      exact Or.inl h

/-- Helper: setting one entry changes the length sum by that entry's
length difference. -/
theorem sum_map_length_set {acc : List (List Nat)} {i : Nat} {l : List Nat}
    (hl : acc[i]? = some l) (l' : List Nat) :
    ((acc.set i l').map List.length).sum + l.length =
      (acc.map List.length).sum + l'.length := by
  induction acc generalizing i with
  | nil => simp at hl
  | cons a rest ih =>
    cases i with
    | zero =>
      have ha : a = l := by simpa using hl
      subst ha
      simp [List.set]
      omega
    | succ j =>
      have hl' : rest[j]? = some l := by simpa using hl
      have := ih hl'
      simp only [List.set_cons_succ, List.map_cons, List.sum_cons]
      omega

/-- Helper: one entry's length is at most the table's total length. -/
theorem length_le_sum_map_length {acc : List (List Nat)} {d : Nat} {l : List Nat}
    (h : acc[d]? = some l) : l.length ≤ (acc.map List.length).sum := by
  induction acc generalizing d with
  | nil => simp at h
  | cons a rest ih =>
    cases d with
    | zero =>
      have ha : a = l := by simpa using h
      subst ha
      simp
    | succ j =>
      have h' : rest[j]? = some l := by simpa using h
      have := ih h'
      simp only [List.map_cons, List.sum_cons]
      omega

/-- Helper: `pushOut` grows the total entry count by at most one. -/
theorem pushOut_totalLen (acc : List (List Nat)) (input idx : Nat) :
    ((pushOut acc input idx).map List.length).sum ≤ (acc.map List.length).sum + 1 := by
  unfold pushOut
  cases hl : acc[input]? with
  | none => simp
  | some l =>
    show ((acc.set input (l ++ [idx])).map List.length).sum ≤ (acc.map List.length).sum + 1
    have := sum_map_length_set hl (l ++ [idx])
    simp only [List.length_append, List.length_cons, List.length_nil] at this
    omega

/-- Helper: `addOutEdges` keeps the table's length. -/
theorem addOutEdges_length (acc : List (List Nat)) (idx : Nat) (inputs : List Nat) :
    (addOutEdges acc idx inputs).length = acc.length := by
  induction inputs generalizing acc with
  | nil => rfl
  | cons i rest ih =>
    show (addOutEdges (pushOut acc i idx) idx rest).length = acc.length
    rw [ih, pushOut_length]

/-- Helper: `addOutEdges` keeps every existing entry membership. -/
theorem addOutEdges_mem_mono {acc : List (List Nat)} {idx : Nat} {inputs : List Nat}
    {d x : Nat} (h : x ∈ (acc[d]?).getD []) :
    x ∈ ((addOutEdges acc idx inputs)[d]?).getD [] := by
  induction inputs generalizing acc with
  | nil => exact h
  | cons i rest ih => exact ih (pushOut_mem_mono h)

/-- Helper: `addOutEdges` records `idx` under every in-range input. -/
theorem addOutEdges_mem_self {acc : List (List Nat)} {idx : Nat} {inputs : List Nat}
    {d : Nat} (hd : d ∈ inputs) (hlt : d < acc.length) :
    idx ∈ ((addOutEdges acc idx inputs)[d]?).getD [] := by
  induction inputs generalizing acc with
  | nil => simp at hd
  | cons i rest ih =>
    rcases List.mem_cons.mp hd with rfl | hd'
    · show idx ∈ ((addOutEdges (pushOut acc d idx) idx rest)[d]?).getD []
      exact addOutEdges_mem_mono (pushOut_mem_self hlt)
    · show idx ∈ ((addOutEdges (pushOut acc i idx) idx rest)[d]?).getD []
      exact ih hd' (by rw [pushOut_length]; exact hlt)

/-- Helper: members of `addOutEdges` entries are old members or `idx`. -/
theorem addOutEdges_mem_inv {acc : List (List Nat)} {idx : Nat} {inputs : List Nat}
    {d x : Nat} (h : x ∈ ((addOutEdges acc idx inputs)[d]?).getD []) :
    x ∈ (acc[d]?).getD [] ∨ x = idx := by
  induction inputs generalizing acc with
  | nil => exact Or.inl h
  | cons i rest ih =>
    rcases ih h with h2 | h2
    · exact pushOut_mem_inv h2
    · exact Or.inr h2

/-- Helper: `addOutEdges` grows the total entry count by at most the
number of inputs. -/
theorem addOutEdges_totalLen (acc : List (List Nat)) (idx : Nat) (inputs : List Nat) :
    ((addOutEdges acc idx inputs).map List.length).sum ≤
      (acc.map List.length).sum + inputs.length := by
  induction inputs generalizing acc with
  | nil => simp [addOutEdges]
  | cons i rest ih =>
    have h1 := ih (pushOut acc i idx)
    have h2 := pushOut_totalLen acc i idx
    show ((addOutEdges (pushOut acc i idx) idx rest).map List.length).sum ≤ _
    simp only [List.length_cons]
    omega

/-- Helper: `buildOutEdgesAux` keeps the table's length. -/
theorem buildOutEdgesAux_length (acc : List (List Nat)) (idx : Nat)
    (nodes : List GraphNode) :
    (buildOutEdgesAux acc idx nodes).length = acc.length := by
  induction nodes generalizing acc idx with
  | nil => rfl
  | cons nd rest ih =>
    show (buildOutEdgesAux (addOutEdges acc idx nd.inputs) (idx + 1) rest).length = _
    rw [ih, addOutEdges_length]

/-- Helper: `buildOutEdgesAux` keeps every existing entry membership. -/
theorem buildOutEdgesAux_mem_mono {acc : List (List Nat)} {idx : Nat}
    {nodes : List GraphNode} {d x : Nat} (h : x ∈ (acc[d]?).getD []) :
    x ∈ ((buildOutEdgesAux acc idx nodes)[d]?).getD [] := by
  induction nodes generalizing acc idx with
  | nil => exact h
  | cons nd rest ih => exact ih (addOutEdges_mem_mono h)

/-- Helper: `buildOutEdgesAux` covers every edge: the `k`-th node's index
lands in the out-edge entry of each of its in-range inputs. -/
theorem buildOutEdgesAux_cover {acc : List (List Nat)} {idx : Nat}
    {nodes : List GraphNode} {k : Nat} {nd : GraphNode}
    (hk : nodes[k]? = some nd) {d : Nat} (hd : d ∈ nd.inputs) (hlt : d < acc.length) :
    (idx + k) ∈ ((buildOutEdgesAux acc idx nodes)[d]?).getD [] := by
  induction nodes generalizing acc idx k with
  | nil => simp at hk
  | cons nd0 rest ih =>
    cases k with
    | zero =>
      have hnd : nd0 = nd := by simpa using hk
      subst hnd
      show (idx + 0) ∈ ((buildOutEdgesAux (addOutEdges acc idx nd0.inputs) (idx + 1)
        rest)[d]?).getD []
      rw [Nat.add_zero]
      exact buildOutEdgesAux_mem_mono (addOutEdges_mem_self hd hlt)
    | succ k' =>
      have hk' : rest[k']? = some nd := by simpa using hk
      show (idx + (k' + 1)) ∈ ((buildOutEdgesAux (addOutEdges acc idx nd0.inputs)
        (idx + 1) rest)[d]?).getD []
      have harith : idx + (k' + 1) = (idx + 1) + k' := by omega
      rw [harith]
      exact ih hk' (by rw [addOutEdges_length]; exact hlt)

/-- Helper: members of `buildOutEdgesAux` entries are old members or
node indices from `idx` on, bounded by `idx` plus the node count. -/
theorem buildOutEdgesAux_mem_inv {acc : List (List Nat)} {idx : Nat}
    {nodes : List GraphNode} {d x : Nat}
    (h : x ∈ ((buildOutEdgesAux acc idx nodes)[d]?).getD []) :
    x ∈ (acc[d]?).getD [] ∨ (idx ≤ x ∧ x < idx + nodes.length) := by
  induction nodes generalizing acc idx with
  | nil => exact Or.inl h
  | cons nd0 rest ih =>
    rcases ih h with h2 | h2
    · rcases addOutEdges_mem_inv h2 with h3 | h3
      · exact Or.inl h3
      · subst h3
        exact Or.inr ⟨le_refl _, by simp⟩
    · exact Or.inr ⟨by omega, by simp; omega⟩

/-- Helper: `buildOutEdgesAux` grows the total entry count by at most the
total input count. -/
theorem buildOutEdgesAux_totalLen (acc : List (List Nat)) (idx : Nat)
    (nodes : List GraphNode) :
    ((buildOutEdgesAux acc idx nodes).map List.length).sum ≤
      (acc.map List.length).sum + totalInputs nodes := by
  induction nodes generalizing acc idx with
  | nil => simp [buildOutEdgesAux, totalInputs]
  | cons nd rest ih =>
    have h1 := ih (addOutEdges acc idx nd.inputs) (idx + 1)
    have h2 := addOutEdges_totalLen acc idx nd.inputs
    show ((buildOutEdgesAux (addOutEdges acc idx nd.inputs) (idx + 1) rest).map
      List.length).sum ≤ _
    have ht : totalInputs (nd :: rest) = nd.inputs.length + totalInputs rest := by
      simp [totalInputs]
    omega

/-- Helper: the out-edge table has one entry per node. -/
theorem buildOutEdges_length (nodes : List GraphNode) :
    (buildOutEdges nodes).length = nodes.length := by
  unfold buildOutEdges
  rw [buildOutEdgesAux_length]
  simp

/-- Helper: out-edge entries are node indices. -/
theorem buildOutEdges_mem_lt {nodes : List GraphNode} {d x : Nat}
    (h : x ∈ (((buildOutEdges nodes)[d]?).getD [])) : x < nodes.length := by
  unfold buildOutEdges at h
  rcases buildOutEdgesAux_mem_inv h with h2 | h2
  · exfalso
    have hz : ((List.replicate nodes.length ([] : List Nat))[d]?).getD [] = [] := by
      rw [List.getElem?_replicate]
      rcases Nat.lt_or_ge d nodes.length with hd | hd
      · rw [if_pos hd]; rfl
      · rw [if_neg (by omega)]; rfl
    rw [hz] at h2
    simp at h2
  · omega

/-- Helper: the out-edge table covers every in-range edge. -/
theorem buildOutEdges_cover {nodes : List GraphNode} {k : Nat} {nd : GraphNode}
    (hk : nodes[k]? = some nd) {d : Nat} (hd : d ∈ nd.inputs) (hlt : d < nodes.length) :
    k ∈ (((buildOutEdges nodes)[d]?).getD []) := by
  unfold buildOutEdges
  have := @buildOutEdgesAux_cover (List.replicate nodes.length []) 0 nodes k nd
    hk d hd (by simpa using hlt)
  simpa using this

/-- Helper: each out-edge entry's length is bounded by the total input
count. -/
theorem buildOutEdges_entry_len {nodes : List GraphNode} (d : Nat) :
    (((buildOutEdges nodes)[d]?).getD []).length ≤ totalInputs nodes := by
  rcases hl : (buildOutEdges nodes)[d]? with _ | l
  · simp
  · simp only [Option.getD_some]
    have h1 := length_le_sum_map_length hl
    have h2 : ((buildOutEdges nodes).map List.length).sum ≤ totalInputs nodes := by
      unfold buildOutEdges
      have := buildOutEdgesAux_totalLen (List.replicate nodes.length []) 0 nodes
      have hz : ((List.replicate nodes.length ([] : List Nat)).map List.length).sum = 0 := by
        simp
      omega
    omega

/-- Helper: a queue with a last element splits off that element. -/
theorem queue_eq_dropLast_concat {queue : List Nat} {idx : Nat}
    (h : queue.getLast? = some idx) : queue = queue.dropLast ++ [idx] := by
  have hne : queue ≠ [] := by
    intro heq
    rw [heq] at h
    simp at h
  have hcat := List.dropLast_concat_getLast hne
  rw [List.getLast?_eq_getLast queue hne] at h
  have hidx : queue.getLast hne = idx := by simpa using h
  rw [← hidx]
  exact hcat.symm

/-- Helper: the worklist step that skips an already-processed index. -/
theorem kahnLoop_step_skip (nodes : List GraphNode) (outEdges : List (List Nat))
    (fuel : Nat) (queue : List Nat) (processed : List Bool) (result : List Nat)
    {idx : Nat} (hq : queue.getLast? = some idx)
    (hp : (processed[idx]?).getD false = true) :
    kahnLoop nodes outEdges (fuel + 1) queue processed result =
      kahnLoop nodes outEdges fuel queue.dropLast processed result := by
  rw [kahnLoop]
  simp only [hq]
  rw [if_pos hp]

/-- Helper: the worklist step that marks a fresh index and scans its
dependents. -/
theorem kahnLoop_step_mark (nodes : List GraphNode) (outEdges : List (List Nat))
    (fuel : Nat) (queue : List Nat) (processed : List Bool) (result : List Nat)
    {idx : Nat} (hq : queue.getLast? = some idx)
    (hp : (processed[idx]?).getD false = false) :
    kahnLoop nodes outEdges (fuel + 1) queue processed result =
      kahnLoop nodes outEdges fuel
        (queue.dropLast ++ readyPush nodes outEdges (processed.set idx true) idx)
        (processed.set idx true) (result ++ [idx]) := by
  rw [kahnLoop]
  simp only [hq]
  rw [if_neg (by rw [hp]; simp)]

/-- Helper: setting a flag true preserves every true flag. -/
theorem getD_set_true_mono {processed : List Bool} {idx i : Nat}
    (h : (processed[i]?).getD false = true) :
    (((processed.set idx true)[i]?).getD false) = true := by
  by_cases hii : idx = i
  · subst hii
    have hlt : idx < processed.length := by
      by_contra hge
      rw [List.getElem?_eq_none (Nat.le_of_not_lt hge)] at h
      simp at h
    rw [List.getElem?_set_self hlt]
    rfl
  · rw [List.getElem?_set_ne hii]
    exact h

/-- Helper: a fresh index really is an unset in-range flag. -/
theorem getD_false_of_lt {processed : List Bool} {idx : Nat}
    (hlt : idx < processed.length) (h : (processed[idx]?).getD false = false) :
    processed[idx]? = some false := by
  rw [List.getElem?_eq_getElem hlt] at h ⊢
  simp only [Option.getD_some] at h
  rw [h]

/-- Helper: the worklist-loop invariant.  Given enough fuel (measured
against the queue plus the unprocessed count), a queue of in-range,
input-ready indices, a result list in sync with the processed flags,
and the liveness fact that any unprocessed node either has an
unprocessed input or sits in the queue, the loop returns a duplicate-free
result in sync with its final flags, in which every listed node's inputs
appear earlier, and where any node left unprocessed has an unprocessed
input. -/
theorem kahnLoop_spec (nodes : List GraphNode) (outEdges : List (List Nat)) (E : Nat)
    (houtlt : ∀ d x : Nat, x ∈ ((outEdges[d]?).getD []) → x < nodes.length)
    (houtlen : ∀ d : Nat, (((outEdges[d]?).getD [])).length ≤ E)
    (hcover : ∀ x, x < nodes.length → ∀ d ∈ inputsOf nodes x, d < nodes.length →
      x ∈ ((outEdges[d]?).getD [])) :
    ∀ (fuel : Nat) (queue : List Nat) (processed : List Bool) (result res : List Nat)
      (proc : List Bool),
      kahnLoop nodes outEdges fuel queue processed result = (res, proc) →
      queue.length + (processed.count false) * (E + 1) ≤ fuel →
      processed.length = nodes.length →
      (∀ x ∈ queue, x < nodes.length) →
      (∀ x ∈ queue, ∀ i ∈ inputsOf nodes x, (processed[i]?).getD false = true) →
      (∀ x, x ∈ result ↔ (processed[x]?).getD false = true) →
      result.Nodup →
      (∀ k (hk : k < result.length), ∀ i ∈ inputsOf nodes (result.get ⟨k, hk⟩),
        i ∈ result.take k) →
      (∀ x, x < nodes.length → (processed[x]?).getD false = false →
        (∃ i ∈ inputsOf nodes x, (processed[i]?).getD false = false) ∨ x ∈ queue) →
      (proc.length = nodes.length ∧
       (∀ x, x ∈ res ↔ (proc[x]?).getD false = true) ∧
       res.Nodup ∧
       (∀ k (hk : k < res.length), ∀ i ∈ inputsOf nodes (res.get ⟨k, hk⟩),
         i ∈ res.take k) ∧
       (∀ x, x < nodes.length → (proc[x]?).getD false = false →
         ∃ i ∈ inputsOf nodes x, (proc[i]?).getD false = false)) := by
  intro fuel
  induction fuel with
  | zero =>
    intro queue processed result res proc hrun hfuel hlen hqlt hqready hsync hnodup
      hprec hlive
    have hcf : processed.count false = 0 := by
      have h0 : queue.length = 0 ∧ processed.count false * (E + 1) = 0 := by omega
      rcases Nat.mul_eq_zero.mp h0.2 with h | h
      · exact h
      · omega
    have hpair : (result, processed) = (res, proc) := hrun
    have hres : result = res := congrArg Prod.fst hpair
    have hproc : processed = proc := congrArg Prod.snd hpair
    subst hres
    subst hproc
    refine ⟨hlen, hsync, hnodup, hprec, ?_⟩
    intro x hx hfalse
    exfalso
    have hnotin : false ∉ processed := List.count_eq_zero.mp hcf
    have hsome : processed[x]? = some false := getD_false_of_lt (by omega) hfalse
    exact hnotin (List.getElem?_mem hsome)
  | succ fuel ih =>
    intro queue processed result res proc hrun hfuel hlen hqlt hqready hsync hnodup
      hprec hlive
    cases hq : queue.getLast? with
    | none =>
      have hqnil : queue = [] := by
        cases hqc : queue with
        | nil => rfl
        | cons a rest =>
          rw [hqc] at hq
          simp at hq
      rw [kahnLoop] at hrun
      rw [hq] at hrun
      have hpair : (result, processed) = (res, proc) := hrun
      have hres : result = res := congrArg Prod.fst hpair
      have hproc : processed = proc := congrArg Prod.snd hpair
      subst hres
      subst hproc
      refine ⟨hlen, hsync, hnodup, hprec, ?_⟩
      intro x hx hfalse
      rcases hlive x hx hfalse with h | h
      · exact h
      · rw [hqnil] at h
        simp at h
    | some idx =>
      have hqdecomp := queue_eq_dropLast_concat hq
      have hidxq : idx ∈ queue := by
        rw [hqdecomp]
        simp
      have hidxlt : idx < nodes.length := hqlt idx hidxq
      have hqlen : queue.length = queue.dropLast.length + 1 := by
        conv_lhs => rw [hqdecomp]
        simp
      have hrestmem : ∀ x ∈ queue.dropLast, x ∈ queue :=
        fun x hx => (List.dropLast_sublist queue).subset hx
      cases hpidx : (processed[idx]?).getD false with
      | true =>
        rw [kahnLoop_step_skip nodes outEdges fuel queue processed result hq hpidx]
          at hrun
        refine ih queue.dropLast processed result res proc hrun (by omega) hlen
          (fun x hx => hqlt x (hrestmem x hx))
          (fun x hx => hqready x (hrestmem x hx))
          hsync hnodup hprec ?_
        intro x hx hfalse
        rcases hlive x hx hfalse with h | h
        · exact Or.inl h
        · right
          rw [hqdecomp] at h
          rcases List.mem_append.mp h with h2 | h2
          · exact h2
          · exfalso
            have hxidx : x = idx := by simpa using h2
            rw [hxidx, hpidx] at hfalse
            exact Bool.noConfusion hfalse
      | false =>
        rw [kahnLoop_step_mark nodes outEdges fuel queue processed result hq hpidx]
          at hrun
        have hidxplt : idx < processed.length := by omega
        have hsomefalse : processed[idx]? = some false := getD_false_of_lt hidxplt hpidx
        have hcfpos : 1 ≤ processed.count false := by
          rw [Nat.succ_le, List.count_pos_iff]
          exact List.getElem?_mem hsomefalse
        have hcf2 : (processed.set idx true).count false = processed.count false - 1 := by
          have hgetelem : processed[idx] = false := by
            rw [List.getElem?_eq_getElem hidxplt] at hsomefalse
            simpa using hsomefalse
          rw [List.count_set true false processed idx hidxplt]
          simp [hgetelem]
        have htplen : (readyPush nodes outEdges (processed.set idx true) idx).length ≤ E := by
          have h1 : (readyPush nodes outEdges (processed.set idx true) idx).length ≤
              (((outEdges[idx]?).getD [])).length := List.length_filter_le _ _
          have h2 := houtlen idx
          omega
        have hfuel2 : (queue.dropLast ++ readyPush nodes outEdges
            (processed.set idx true) idx).length +
            ((processed.set idx true).count false) * (E + 1) ≤ fuel := by
          rw [List.length_append, hcf2]
          have hmul : (processed.count false - 1) * (E + 1) =
              processed.count false * (E + 1) - (E + 1) := by
            rw [Nat.sub_mul]
            simp
          have hge : E + 1 ≤ processed.count false * (E + 1) := by
            calc E + 1 = 1 * (E + 1) := by omega
            _ ≤ processed.count false * (E + 1) := Nat.mul_le_mul_right _ hcfpos
          omega
        have htpmem : ∀ x ∈ readyPush nodes outEdges (processed.set idx true) idx,
            x ∈ ((outEdges[idx]?).getD []) := by
          intro x hx
          exact (List.mem_filter.mp hx).1
        have htpcond : ∀ x ∈ readyPush nodes outEdges (processed.set idx true) idx,
            (∀ i ∈ inputsOf nodes x, (((processed.set idx true)[i]?).getD false) = true) ∧
            (((processed.set idx true)[x]?).getD false) = false := by
          intro x hx
          have hcond := (List.mem_filter.mp hx).2
          rw [Bool.and_eq_true] at hcond
          constructor
          · intro i hi
            have hall := hcond.1
            rw [List.all_eq_true] at hall
            exact hall i hi
          · have hnot := hcond.2
            rw [Bool.not_eq_true'] at hnot
            exact hnot
        have hidxnotin : idx ∉ result := by
          intro hin
          rw [hsync idx] at hin
          rw [hpidx] at hin
          exact Bool.noConfusion hin
        refine ih (queue.dropLast ++ readyPush nodes outEdges (processed.set idx true) idx)
          (processed.set idx true) (result ++ [idx]) res proc hrun hfuel2
          (by rw [List.length_set]; exact hlen) ?_ ?_ ?_ ?_ ?_ ?_
        · intro x hx
          rcases List.mem_append.mp hx with h2 | h2
          · exact hqlt x (hrestmem x h2)
          · exact houtlt idx x (htpmem x h2)
        · intro x hx i hi
          rcases List.mem_append.mp hx with h2 | h2
          · exact getD_set_true_mono (hqready x (hrestmem x h2) i hi)
          · exact (htpcond x h2).1 i hi
        · intro x
          constructor
          · intro hx
            rcases List.mem_append.mp hx with h2 | h2
            · exact getD_set_true_mono ((hsync x).mp h2)
            · have hxidx : x = idx := by simpa using h2
              subst hxidx
              rw [List.getElem?_set_self hidxplt]
              rfl
          · intro hx
            by_cases hxidx : x = idx
            · subst hxidx
              simp
            · rw [List.getElem?_set_ne (fun h => hxidx h.symm)] at hx
              exact List.mem_append.mpr (Or.inl ((hsync x).mpr hx))
        · rw [List.nodup_append]
          refine ⟨hnodup, List.nodup_singleton idx, ?_⟩
          intro y hy hyidx
          have : y = idx := by simpa using hyidx
          subst this
          exact hidxnotin hy
        · intro k hk i hi
          have hlen2 : (result ++ [idx]).length = result.length + 1 := by simp
          rcases Nat.lt_or_ge k result.length with hklt | hkge
          · have hget : (result ++ [idx]).get ⟨k, hk⟩ = result.get ⟨k, hklt⟩ := by
              rw [List.get_eq_getElem, List.get_eq_getElem]
              exact List.getElem_append_left hklt
            rw [hget] at hi
            have := hprec k hklt i hi
            rw [List.take_append_of_le_length (by omega)]
            exact this
          · have hkeq : k = result.length := by omega
            subst hkeq
            have hget : (result ++ [idx]).get ⟨result.length, hk⟩ = idx := by
              rw [List.get_eq_getElem]
              rw [List.getElem_append_right (le_refl _)]
              simp
            rw [hget] at hi
            have htrue := hqready idx hidxq i hi
            have := (hsync i).mpr htrue
            rw [List.take_append_of_le_length (le_refl _)]
            rw [List.take_length]
            exact this
        · intro x hx hfalse
          have hxidx : x ≠ idx := by
            intro heq
            subst heq
            rw [List.getElem?_set_self hidxplt] at hfalse
            exact Bool.noConfusion hfalse
          have hfalseold : (processed[x]?).getD false = false := by
            rw [List.getElem?_set_ne (fun h => hxidx h.symm)] at hfalse
            exact hfalse
          rcases hlive x hx hfalseold with h | h
          · rcases h with ⟨i, hi, hifalse⟩
            by_cases hall : ∀ j ∈ inputsOf nodes x,
                (((processed.set idx true)[j]?).getD false) = true
            · right
              apply List.mem_append.mpr
              right
              have hiidx : i = idx := by
                by_contra hne
                have := hall i hi
                rw [List.getElem?_set_ne (fun h2 => hne h2.symm)] at this
                rw [hifalse] at this
                exact Bool.noConfusion this
              subst hiidx
              have hmemout : x ∈ ((outEdges[i]?).getD []) :=
                hcover x hx i hi hidxlt
              apply List.mem_filter.mpr
              refine ⟨hmemout, ?_⟩
              rw [Bool.and_eq_true]
              constructor
              · rw [List.all_eq_true]
                intro j hj
                exact hall j hj
              · rw [hfalse]
                rfl
            · left
              push_neg at hall
              rcases hall with ⟨j, hj, hjfalse⟩
              refine ⟨j, hj, ?_⟩
              cases hjv : (((processed.set idx true)[j]?).getD false) with
              | false => rfl
              | true => exact absurd hjv hjfalse
          · right
            apply List.mem_append.mpr
            left
            rw [hqdecomp] at h
            rcases List.mem_append.mp h with h2 | h2
            · exact h2
            · exfalso
              have : x = idx := by simpa using h2
              exact hxidx this

/-- Helper: a fresh flag vector has no set flags. -/
theorem replicate_false_getD (n i : Nat) :
    (((List.replicate n false)[i]?).getD false) = false := by
  rw [List.getElem?_replicate]
  rcases Nat.lt_or_ge i n with h | h
  · rw [if_pos h]; rfl
  · rw [if_neg (by omega)]; rfl

/-- Helper: the full sort is a permutation of the node indices, and —
when inputs are in range and the is-input-of relation is well-founded
(the graph is a DAG) — every node's inputs appear before it in the
order. -/
theorem topological_sort_spec (nodes : List GraphNode) :
    (topological_sort nodes).Perm (List.range nodes.length) ∧
    ((∀ nd ∈ nodes, ∀ i ∈ nd.inputs, i < nodes.length) →
     (∀ x, Acc (fun a b => ∃ nd : GraphNode, nodes[b]? = some nd ∧ a ∈ nd.inputs) x) →
     ∀ k (hk : k < (topological_sort nodes).length),
       ∀ i ∈ inputsOf nodes ((topological_sort nodes).get ⟨k, hk⟩),
         i ∈ (topological_sort nodes).take k) := by
  by_cases hn : nodes.length = 0
  · have hnil : nodes = [] := List.length_eq_zero.mp hn
    subst hnil
    have htopo : topological_sort [] = [] := rfl
    constructor
    · rw [htopo]
      simp
    · intro _ _ k hk
      rw [htopo] at hk
      simp at hk
  · rcases hr : kahnLoop nodes (buildOutEdges nodes)
        (((List.range nodes.length).filter (fun i =>
          ((nodes[i]?).getD (GraphNode.mk 0 false [] [] [])).inputs.length = 0)).length +
          nodes.length * (totalInputs nodes + 1))
        ((List.range nodes.length).filter (fun i =>
          ((nodes[i]?).getD (GraphNode.mk 0 false [] [] [])).inputs.length = 0))
        (List.replicate nodes.length false) [] with ⟨res, proc⟩
    have htopo : topological_sort nodes =
        res ++ (List.range nodes.length).filter (fun i => !((proc[i]?).getD false)) := by
      unfold topological_sort
      rw [if_neg hn]
      show (kahnLoop nodes (buildOutEdges nodes)
        (((List.range nodes.length).filter (fun i =>
          ((nodes[i]?).getD (GraphNode.mk 0 false [] [] [])).inputs.length = 0)).length +
          nodes.length * (totalInputs nodes + 1))
        ((List.range nodes.length).filter (fun i =>
          ((nodes[i]?).getD (GraphNode.mk 0 false [] [] [])).inputs.length = 0))
        (List.replicate nodes.length false) []).1 ++ _ = _
      rw [hr]
    have hspec := kahnLoop_spec nodes (buildOutEdges nodes) (totalInputs nodes)
      (fun d x hx => buildOutEdges_mem_lt hx)
      (fun d => buildOutEdges_entry_len d)
      (by
        intro x hx d hd hdlt
        have hx2 : nodes[x]? = some nodes[x] := List.getElem?_eq_getElem hx
        apply buildOutEdges_cover hx2 _ hdlt
        unfold inputsOf at hd
        rw [hx2] at hd
        simpa using hd)
      _ _ _ _ res proc hr
      (by
        rw [List.count_replicate]
        simp)
      (by simp)
      (by
        intro x hx
        have := List.mem_filter.mp hx
        simpa using this.1)
      (by
        intro x hx i hi
        exfalso
        have hcond := (List.mem_filter.mp hx).2
        have hlen0 : (((nodes[x]?).getD (GraphNode.mk 0 false [] [] [])).inputs).length = 0 :=
          of_decide_eq_true hcond
        have : inputsOf nodes x = [] := List.length_eq_zero.mp hlen0
        rw [this] at hi
        simp at hi)
      (by
        intro x
        constructor
        · intro hx
          simp at hx
        · intro hx
          rw [replicate_false_getD] at hx
          exact Bool.noConfusion hx)
      List.nodup_nil
      (by
        intro k hk
        simp at hk)
      (by
        intro x hx hfalse
        by_cases hinp : inputsOf nodes x = []
        · right
          apply List.mem_filter.mpr
          refine ⟨List.mem_range.mpr hx, ?_⟩
          apply decide_eq_true
          show (((nodes[x]?).getD (GraphNode.mk 0 false [] [] [])).inputs).length = 0
          rw [show ((nodes[x]?).getD (GraphNode.mk 0 false [] [] [])).inputs =
            inputsOf nodes x from rfl]
          rw [hinp]
          rfl
        · left
          cases hinp2 : inputsOf nodes x with
          | nil => exact absurd hinp2 hinp
          | cons i rest =>
            refine ⟨i, by simp, ?_⟩
            exact replicate_false_getD nodes.length i)
    rcases hspec with ⟨hproclen, hsync, hnodup, hprec, hlive⟩
    have hresmem : ∀ x ∈ res, x < nodes.length := by
      intro x hx
      have htrue := (hsync x).mp hx
      by_contra hge
      rw [List.getElem?_eq_none (by omega)] at htrue
      exact Bool.noConfusion htrue
    constructor
    · rw [htopo]
      have hfulnodup : (res ++ (List.range nodes.length).filter
          (fun i => !((proc[i]?).getD false))).Nodup := by
        rw [List.nodup_append]
        refine ⟨hnodup, List.Nodup.filter _ (List.nodup_range nodes.length), ?_⟩
        intro a ha ha2
        have htrue := (hsync a).mp ha
        have hcond := (List.mem_filter.mp ha2).2
        rw [htrue] at hcond
        simp at hcond
      rw [List.perm_ext_iff_of_nodup hfulnodup (List.nodup_range nodes.length)]
      intro a
      constructor
      · intro ha
        rcases List.mem_append.mp ha with h | h
        · exact List.mem_range.mpr (hresmem a h)
        · exact (List.mem_filter.mp h).1
      · intro ha
        have halt := List.mem_range.mp ha
        cases hpa : (proc[a]?).getD false with
        | true => exact List.mem_append.mpr (Or.inl ((hsync a).mpr hpa))
        | false =>
          apply List.mem_append.mpr
          right
          apply List.mem_filter.mpr
          exact ⟨ha, by rw [hpa]; rfl⟩
    · intro hwf hdag
      have hall : ∀ x, x < nodes.length → (proc[x]?).getD false = true := by
        intro x
        have hacc := hdag x
        induction hacc with
        | intro y hy ihy =>
          intro hyn
          cases hpy : (proc[y]?).getD false with
          | true => rfl
          | false =>
            exfalso
            rcases hlive y hyn hpy with ⟨i0, hi0, hi0false⟩
            have hy2 : nodes[y]? = some nodes[y] := List.getElem?_eq_getElem hyn
            have hi0inputs : i0 ∈ nodes[y].inputs := by
              unfold inputsOf at hi0
              rw [hy2] at hi0
              simpa using hi0
            have hrel : ∃ nd, nodes[y]? = some nd ∧ i0 ∈ nd.inputs :=
              ⟨nodes[y], hy2, hi0inputs⟩
            have hi0lt : i0 < nodes.length :=
              hwf nodes[y] (List.getElem?_mem hy2) i0 hi0inputs
            have := ihy i0 hrel hi0lt
            rw [this] at hi0false
            exact Bool.noConfusion hi0false
      have hfilnil : (List.range nodes.length).filter
          (fun i => !((proc[i]?).getD false)) = [] := by
        rw [List.filter_eq_nil_iff]
        intro a ha
        have := hall a (List.mem_range.mp ha)
        rw [this]
        simp
      have htopo2 : topological_sort nodes = res := by
        rw [htopo, hfilnil, List.append_nil]
      subst htopo2
      intro k hk i hi
      exact hprec k hk i hi

/-- Claim C6: the evaluation order `prepare` computes lists every node
exactly once (it is a permutation of the node indices); and on a DAG —
inputs in range and the is-input-of relation well-founded — every node's
inputs precede that node in the order. -/
theorem prepare_eval_order_topological (g : Graph) :
    ((g.prepare).eval_order).Perm (List.range g.nodes.length) ∧
    ((∀ nd ∈ g.nodes, ∀ i ∈ nd.inputs, i < g.nodes.length) →
     (∀ x, Acc (fun a b => ∃ nd : GraphNode, g.nodes[b]? = some nd ∧ a ∈ nd.inputs) x) →
     ∀ k (hk : k < ((g.prepare).eval_order).length),
       ∀ i ∈ inputsOf g.nodes (((g.prepare).eval_order).get ⟨k, hk⟩),
         i ∈ ((g.prepare).eval_order).take k) := by
  have h : (g.prepare).eval_order = topological_sort g.nodes := rfl
  rw [h]
  exact topological_sort_spec g.nodes

/-- Claim C9: an event naming a session node id that is absent from
`id_to_index` is silently dropped: `set_param_by_id`,
`start_audio_by_id` and `stop_audio_by_id` leave the graph unchanged. -/
theorem unknown_node_id_is_noop (g : Graph) (node_id param_id : Nat) (value : Int)
    (audio_id start_sample duration_samples : Nat) (gain : Int)
    (h : g.id_to_index.lookup node_id = none) :
    g.set_param_by_id node_id param_id value = g ∧
    g.start_audio_by_id node_id audio_id start_sample duration_samples gain = g ∧
    g.stop_audio_by_id node_id audio_id = g := by
  unfold Graph.set_param_by_id Graph.start_audio_by_id Graph.stop_audio_by_id
  rw [h]
  exact ⟨rfl, rfl, rfl⟩

/-- Witness for C9: a fresh graph's id map is empty, so id 5 is
unknown. -/
theorem unknown_node_id_is_noop_witness :
    (Graph.new 16 2).id_to_index.lookup 5 = none ∧
    ((Graph.new 16 2).set_param_by_id 5 3 7 = Graph.new 16 2 ∧
     (Graph.new 16 2).start_audio_by_id 5 1 0 100 1 = Graph.new 16 2 ∧
     (Graph.new 16 2).stop_audio_by_id 5 1 = Graph.new 16 2) :=
  ⟨rfl, unknown_node_id_is_noop (Graph.new 16 2) 5 3 7 1 0 100 1 rfl⟩

/-- Helper: rewriting an entry to its current value changes nothing. -/
theorem set_getElem?_self {α : Type} {l : List α} {i : Nat} {a : α}
    (h : l[i]? = some a) : l.set i a = l := by
  apply List.ext_getElem?
  intro n
  by_cases hn : i = n
  · subst hn
    have hlt : i < l.length := by
      by_contra hge
      rw [List.getElem?_eq_none (Nat.le_of_not_lt hge)] at h
      exact Option.noConfusion h
    rw [List.getElem?_set_self hlt]
    exact h.symm
  · rw [List.getElem?_set_ne hn]

/-- Helper: `set_param` touches only the addressed node's parameter log. -/
theorem set_param_nodes {g : Graph} {idx : Nat} {node : GraphNode}
    (h : g.nodes[idx]? = some node) (p : Nat) (v : Int) :
    (g.set_param idx p v).nodes =
      g.nodes.set idx { node with params := node.params ++ [(p, v)] } ∧
    (g.set_param idx p v).output_node = g.output_node ∧
    (g.set_param idx p v).eval_order = g.eval_order ∧
    (g.set_param idx p v).id_to_index = g.id_to_index ∧
    (g.set_param idx p v).max_block = g.max_block ∧
    (g.set_param idx p v).max_voices = g.max_voices := by
  unfold Graph.set_param
  rw [h]
  exact ⟨rfl, rfl, rfl, rfl, rfl, rfl⟩

/-- Helper: the parameter-application fold appends the whole value list
to the addressed node and leaves everything else alone. -/
theorem set_param_foldl {idx : Nat} :
    ∀ (ps : List (Nat × Int)) (g : Graph) (node : GraphNode),
      g.nodes[idx]? = some node →
      ((ps.foldl (fun gg pv => gg.set_param idx pv.1 pv.2) g).nodes =
        g.nodes.set idx { node with params := node.params ++ ps } ∧
       (ps.foldl (fun gg pv => gg.set_param idx pv.1 pv.2) g).output_node = g.output_node ∧
       (ps.foldl (fun gg pv => gg.set_param idx pv.1 pv.2) g).eval_order = g.eval_order ∧
       (ps.foldl (fun gg pv => gg.set_param idx pv.1 pv.2) g).id_to_index = g.id_to_index ∧
       (ps.foldl (fun gg pv => gg.set_param idx pv.1 pv.2) g).max_block = g.max_block ∧
       (ps.foldl (fun gg pv => gg.set_param idx pv.1 pv.2) g).max_voices = g.max_voices) := by
  intro ps
  induction ps with
  | nil =>
    intro g node h
    refine ⟨?_, rfl, rfl, rfl, rfl, rfl⟩
    show g.nodes = g.nodes.set idx { node with params := node.params ++ [] }
    rw [List.append_nil]
    exact (set_getElem?_self h).symm
  | cons pv rest ih =>
    intro g node h
    simp only [List.foldl_cons]
    have hlt : idx < g.nodes.length := by
      by_contra hge
      rw [List.getElem?_eq_none (Nat.le_of_not_lt hge)] at h
      exact Option.noConfusion h
    rcases set_param_nodes h pv.1 pv.2 with ⟨hn, ho, he, hi, hb, hv⟩
    have h2 : (g.set_param idx pv.1 pv.2).nodes[idx]? =
        some { node with params := node.params ++ [(pv.1, pv.2)] } := by
      rw [hn]
      exact List.getElem?_set_self (by simpa using hlt)
    rcases ih (g.set_param idx pv.1 pv.2)
      { node with params := node.params ++ [(pv.1, pv.2)] } h2 with
      ⟨hn2, ho2, he2, hi2, hb2, hv2⟩
    refine ⟨?_, by rw [ho2, ho], by rw [he2, he], by rw [hi2, hi],
      by rw [hb2, hb], by rw [hv2, hv]⟩
    rw [hn2, hn, List.set_set]
    simp

/-- Helper: `connect` preserves node count, types, parameter logs and
every non-node field. -/
theorem connect_fields (g : Graph) (src dst : Nat) :
    (g.connect src dst).nodes.length = g.nodes.length ∧
    (∀ j : Nat, ((g.connect src dst).nodes[j]?).map GraphNode.typeId =
      (g.nodes[j]?).map GraphNode.typeId) ∧
    (∀ j : Nat, ((g.connect src dst).nodes[j]?).map GraphNode.params =
      (g.nodes[j]?).map GraphNode.params) ∧
    (g.connect src dst).output_node = g.output_node ∧
    (g.connect src dst).eval_order = g.eval_order ∧
    (g.connect src dst).id_to_index = g.id_to_index := by
  cases hd : g.nodes[dst]? with
  | none =>
    have hconn : g.connect src dst = g := by
      unfold Graph.connect
      rw [hd]
    rw [hconn]
    exact ⟨rfl, fun j => rfl, fun j => rfl, rfl, rfl, rfl⟩
  | some node =>
    have hconn : g.connect src dst =
        if src ∈ node.inputs then g
        else { g with nodes := g.nodes.set dst { node with inputs := node.inputs ++ [src] } } := by
      unfold Graph.connect
      rw [hd]
    rw [hconn]
    by_cases hmem : src ∈ node.inputs
    · rw [if_pos hmem]
      exact ⟨rfl, fun j => rfl, fun j => rfl, rfl, rfl, rfl⟩
    · rw [if_neg hmem]
      have hlt : dst < g.nodes.length := by
        by_contra hge
        rw [List.getElem?_eq_none (Nat.le_of_not_lt hge)] at hd
        exact Option.noConfusion hd
      refine ⟨by simp, ?_, ?_, rfl, rfl, rfl⟩ <;> intro j <;> by_cases hj : dst = j
      · subst hj
        show ((g.nodes.set dst { node with inputs := node.inputs ++ [src] })[dst]?).map
          GraphNode.typeId = (g.nodes[dst]?).map GraphNode.typeId
        rw [List.getElem?_set_self hlt, hd]
        rfl
      · show ((g.nodes.set dst { node with inputs := node.inputs ++ [src] })[j]?).map
          GraphNode.typeId = (g.nodes[j]?).map GraphNode.typeId
        rw [List.getElem?_set_ne hj]
      · subst hj
        show ((g.nodes.set dst { node with inputs := node.inputs ++ [src] })[dst]?).map
          GraphNode.params = (g.nodes[dst]?).map GraphNode.params
        rw [List.getElem?_set_self hlt, hd]
        rfl
      · show ((g.nodes.set dst { node with inputs := node.inputs ++ [src] })[j]?).map
          GraphNode.params = (g.nodes[j]?).map GraphNode.params
        rw [List.getElem?_set_ne hj]

/-- Helper: a key of the association list has a binding. -/
theorem lookup_isSome_of_mem_keys {β : Type} {l : List (Nat × β)} {a : Nat}
    (h : a ∈ l.map Prod.fst) : ∃ b, l.lookup a = some b := by
  induction l with
  | nil => simp at h
  | cons kv rest ih =>
    rw [List.lookup_cons]
    by_cases hk : a = kv.1
    · rw [show (a == kv.1) = true from beq_iff_eq.mpr hk]
      exact ⟨kv.2, rfl⟩
    · rw [show (a == kv.1) = false from beq_eq_false_iff_ne.mpr hk]
      apply ih
      rcases List.mem_map.mp h with ⟨kv2, hkv2, hfst⟩
      rcases List.mem_cons.mp hkv2 with rfl | hkv2r
      · exact absurd hfst.symm hk
      · exact List.mem_map.mpr ⟨kv2, hkv2r, hfst⟩

/-- Helper: a missing key of an association list has no binding. -/
theorem lookup_eq_none_of_not_mem_keys {β : Type} {l : List (Nat × β)} {a : Nat}
    (h : a ∉ l.map Prod.fst) : l.lookup a = none := by
  induction l with
  | nil => rfl
  | cons kv rest ih =>
    rw [List.lookup_cons]
    have hk : a ≠ kv.1 := by
      intro heq
      exact h (List.mem_map.mpr ⟨kv, by simp, heq.symm⟩)
    rw [show (a == kv.1) = false from beq_eq_false_iff_ne.mpr hk]
    apply ih
    intro hmem
    rcases List.mem_map.mp hmem with ⟨kv2, hkv2, hfst⟩
    exact h (List.mem_map.mpr ⟨kv2, by simp [hkv2], hfst⟩)

/-- Helper: looking a list element up in its pairing with consecutive
indices finds the element's position (first occurrence; here the list is
duplicate-free). -/
theorem lookup_zip_range' {l : List Nat} :
    ∀ (s k : Nat) (hk : k < l.length), l.Nodup →
      (l.zip (List.range' s l.length)).lookup (l.get ⟨k, hk⟩) = some (s + k) := by
  induction l with
  | nil => intro s k hk; simp at hk
  | cons x rest ih =>
    intro s k hk hnodup
    have hlen : (x :: rest).length = rest.length + 1 := rfl
    rw [show List.range' s (x :: rest).length = s :: List.range' (s + 1) rest.length from
      List.range'_succ s rest.length 1]
    rw [List.zip_cons_cons, List.lookup_cons]
    cases k with
    | zero =>
      rw [show (x :: rest).get ⟨0, hk⟩ = x from rfl]
      rw [show (x == x) = true from beq_iff_eq.mpr rfl]
      show some s = some (s + 0)
      rw [Nat.add_zero]
    | succ k' =>
      have hk' : k' < rest.length := by simpa using hk
      have hget : (x :: rest).get ⟨k' + 1, hk⟩ = rest.get ⟨k', hk'⟩ := rfl
      rw [hget]
      have hxne : rest.get ⟨k', hk'⟩ ≠ x := by
        intro heq
        have hxnotin := (List.pairwise_cons.mp hnodup).1
        have hmem : rest.get ⟨k', hk'⟩ ∈ rest := List.mem_iff_get.mpr ⟨⟨k', hk'⟩, rfl⟩
        exact hxnotin (rest.get ⟨k', hk'⟩) hmem heq.symm
      rw [show (rest.get ⟨k', hk'⟩ == x) = false from beq_eq_false_iff_ne.mpr hxne]
      have hres := ih (s + 1) k' hk' (List.Nodup.of_cons hnodup)
      show List.lookup (rest.get ⟨k', hk'⟩) (rest.zip (List.range' (s + 1) rest.length)) =
        some (s + (k' + 1))
      rw [show s + (k' + 1) = (s + 1) + k' from by omega]
      exact hres

/-- Helper: setting the appended slot rewrites the appended element. -/
theorem set_concat_length {α : Type} (l : List α) (a b : α) :
    (l ++ [a]).set l.length b = l ++ [b] := by
  induction l with
  | nil => rfl
  | cons x rest ih =>
    show (x :: (rest ++ [a])).set (rest.length + 1) b = x :: (rest ++ [b])
    rw [List.set_cons_succ, ih]

/-- Helper: the node-creation loop succeeds when every id resolves to a
definition of registered type, appending one node per id — in id-list
order, typed by the definition, parameters applied — and extending the
id map with consecutive indices.  Non-node fields pass through. -/
theorem createNodes_ok (dnodes : List (Nat × NodeDef)) (registry : NodeRegistry) :
    ∀ (ids : List Nat) (g : Graph) (acc : List (Nat × Nat)),
      (∀ id ∈ ids, ∃ nd, dnodes.lookup id = some nd ∧ (registry nd.type_id).isSome) →
      ∃ g' : Graph,
        createNodes dnodes registry ids g acc =
          .ok (g', acc ++ ids.zip (List.range' g.nodes.length ids.length)) ∧
        g'.nodes.length = g.nodes.length + ids.length ∧
        (∀ j, j < g.nodes.length → g'.nodes[j]? = g.nodes[j]?) ∧
        (∀ k (hk : k < ids.length), ∃ nd fac,
          dnodes.lookup (ids.get ⟨k, hk⟩) = some nd ∧
          registry nd.type_id = some fac ∧
          g'.nodes[g.nodes.length + k]? =
            some (GraphNode.mk nd.type_id fac.perVoice [] nd.param_values [])) ∧
        g'.output_node = g.output_node ∧
        g'.eval_order = g.eval_order ∧
        g'.id_to_index = g.id_to_index ∧
        g'.max_block = g.max_block ∧
        g'.max_voices = g.max_voices := by
  intro ids
  induction ids with
  | nil =>
    intro g acc hok
    refine ⟨g, by simp [createNodes], by simp, fun j hj => rfl, ?_, rfl, rfl, rfl, rfl, rfl⟩
    intro k hk
    simp at hk
  | cons id rest ih =>
    intro g acc hok
    rcases hok id (by simp) with ⟨nd, hnd, hfacsome⟩
    rcases Option.isSome_iff_exists.mp hfacsome with ⟨fac, hfac⟩
    have hstep : createNodes dnodes registry (id :: rest) g acc =
        createNodes dnodes registry rest
          (nd.param_values.foldl
            (fun (gg : Graph) pv => gg.set_param g.nodes.length pv.1 pv.2)
            { g with nodes := g.nodes ++ [GraphNode.mk nd.type_id fac.perVoice [] [] []] })
          (acc ++ [(id, g.nodes.length)]) := by
      simp only [createNodes, hnd, hfac]
      rfl
    have hbase : ({ g with nodes :=
        g.nodes ++ [GraphNode.mk nd.type_id fac.perVoice [] [] []] } :
        Graph).nodes[g.nodes.length]? =
        some (GraphNode.mk nd.type_id fac.perVoice [] [] []) := by
      show (g.nodes ++ [GraphNode.mk nd.type_id fac.perVoice [] [] []])[g.nodes.length]? = _
      exact List.getElem?_concat_length _ _
    rcases set_param_foldl nd.param_values _ _ hbase with ⟨hn2, ho2, he2, hi2, hb2, hv2⟩
    have hg2nodes : (nd.param_values.foldl
        (fun (gg : Graph) pv => gg.set_param g.nodes.length pv.1 pv.2)
        { g with nodes := g.nodes ++ [GraphNode.mk nd.type_id fac.perVoice [] [] []] }).nodes =
        g.nodes ++ [GraphNode.mk nd.type_id fac.perVoice [] nd.param_values []] := by
      rw [hn2]
      show (g.nodes ++ [GraphNode.mk nd.type_id fac.perVoice [] [] []]).set g.nodes.length
        (GraphNode.mk nd.type_id fac.perVoice [] ([] ++ nd.param_values) []) = _
      rw [set_concat_length]
      simp
    have hg2len : (nd.param_values.foldl
        (fun (gg : Graph) pv => gg.set_param g.nodes.length pv.1 pv.2)
        { g with nodes := g.nodes ++ [GraphNode.mk nd.type_id fac.perVoice [] [] []] }).nodes.length =
        g.nodes.length + 1 := by
      rw [hg2nodes]
      simp
    rcases ih (nd.param_values.foldl
        (fun (gg : Graph) pv => gg.set_param g.nodes.length pv.1 pv.2)
        { g with nodes := g.nodes ++ [GraphNode.mk nd.type_id fac.perVoice [] [] []] })
        (acc ++ [(id, g.nodes.length)])
        (fun i hi => hok i (by simp [hi])) with
      ⟨g', hrun, hlen, hold, hnew, ho, he, hi2x, hb, hv⟩
    refine ⟨g', ?_, ?_, ?_, ?_, by rw [ho, ho2], by rw [he, he2], by rw [hi2x, hi2],
      by rw [hb, hb2], by rw [hv, hv2]⟩
    · rw [hstep, hrun]
      have hacc : (acc ++ [(id, g.nodes.length)]) ++ rest.zip
          (List.range' ((nd.param_values.foldl
            (fun (gg : Graph) pv => gg.set_param g.nodes.length pv.1 pv.2)
            { g with nodes := g.nodes ++
              [GraphNode.mk nd.type_id fac.perVoice [] [] []] }).nodes.length) rest.length) =
          acc ++ (id :: rest).zip (List.range' g.nodes.length (id :: rest).length) := by
        rw [hg2len]
        rw [show (id :: rest).length = rest.length + 1 from rfl]
        rw [List.range'_succ g.nodes.length rest.length 1]
        rw [List.zip_cons_cons]
        rw [List.append_assoc]
        rfl
      rw [hacc]
    · rw [hlen, hg2len]
      simp
      omega
    · intro j hj
      rw [hold j (by omega), hg2nodes]
      exact List.getElem?_append_left hj
    · intro k hk
      cases k with
      | zero =>
        refine ⟨nd, fac, hnd, hfac, ?_⟩
        rw [Nat.add_zero]
        rw [hold g.nodes.length (by omega), hg2nodes]
        exact List.getElem?_concat_length _ _
      | succ k' =>
        have hk' : k' < rest.length := by simpa using hk
        rcases hnew k' hk' with ⟨nd2, fac2, hnd2, hfac2, hget2⟩
        refine ⟨nd2, fac2, hnd2, hfac2, ?_⟩
        rw [show g.nodes.length + (k' + 1) = (nd.param_values.foldl
          (fun (gg : Graph) pv => gg.set_param g.nodes.length pv.1 pv.2)
          { g with nodes := g.nodes ++
            [GraphNode.mk nd.type_id fac.perVoice [] [] []] }).nodes.length + k' from by
          rw [hg2len]; omega]
        exact hget2

/-- Helper: the connection loop succeeds whenever both endpoints of every
connection resolve in the id map; it changes only the nodes' input lists
and preserves the count, types, parameter logs and the other fields. -/
theorem connectLoop_ok (idToIndex : List (Nat × Nat)) :
    ∀ (conns : List ConnectionDef) (g : Graph) (connected : List (Nat × List Nat)),
      (∀ c ∈ conns, (idToIndex.lookup c.source_node).isSome ∧
        (idToIndex.lookup c.dest_node).isSome) →
      ∃ g', connectLoop idToIndex conns g connected = .ok g' ∧
        g'.nodes.length = g.nodes.length ∧
        (∀ j : Nat, ((g'.nodes[j]?).map GraphNode.typeId) =
          ((g.nodes[j]?).map GraphNode.typeId)) ∧
        (∀ j : Nat, ((g'.nodes[j]?).map GraphNode.params) =
          ((g.nodes[j]?).map GraphNode.params)) ∧
        g'.output_node = g.output_node ∧
        g'.eval_order = g.eval_order ∧
        g'.id_to_index = g.id_to_index := by
  intro conns
  induction conns with
  | nil =>
    intro g connected hok
    exact ⟨g, by simp [connectLoop], rfl, fun j => rfl, fun j => rfl, rfl, rfl, rfl⟩
  | cons conn rest ih =>
    intro g connected hok
    rcases hok conn (by simp) with ⟨hsrc, hdst⟩
    rcases Option.isSome_iff_exists.mp hsrc with ⟨src_idx, hsrc2⟩
    rcases Option.isSome_iff_exists.mp hdst with ⟨dst_idx, hdst2⟩
    by_cases hdup : conn.source_node ∈ ((connected.lookup conn.dest_node).getD [])
    · have hstep : connectLoop idToIndex (conn :: rest) g connected =
          connectLoop idToIndex rest g connected := by
        rw [connectLoop]
        rw [if_pos hdup]
      rcases ih g connected (fun c hc => hok c (by simp [hc])) with
        ⟨g', hrun, hlen, hty, hpar, ho, he, hi⟩
      exact ⟨g', by rw [hstep]; exact hrun, hlen, hty, hpar, ho, he, hi⟩
    · have hstep : connectLoop idToIndex (conn :: rest) g connected =
          connectLoop idToIndex rest (g.connect src_idx dst_idx)
            (updateAssoc connected conn.dest_node
              (((connected.lookup conn.dest_node).getD []) ++ [conn.source_node])) := by
        rw [connectLoop]
        rw [if_neg hdup]
        rw [hsrc2, hdst2]
      rcases ih (g.connect src_idx dst_idx)
          (updateAssoc connected conn.dest_node
            (((connected.lookup conn.dest_node).getD []) ++ [conn.source_node]))
          (fun c hc => hok c (by simp [hc])) with
        ⟨g', hrun, hlen, hty, hpar, ho, he, hi⟩
      rcases connect_fields g src_idx dst_idx with ⟨hclen, hcty, hcpar, hco, hce, hci⟩
      refine ⟨g', by rw [hstep]; exact hrun, by rw [hlen, hclen],
        fun j => by rw [hty j, hcty j], fun j => by rw [hpar j, hcpar j],
        by rw [ho, hco], by rw [he, hce], by rw [hi, hci]⟩

/-- Helper: a successful association lookup returns a stored binding. -/
theorem mem_of_lookup_eq_some {β : Type} {l : List (Nat × β)} {a : Nat} {b : β}
    (h : l.lookup a = some b) : (a, b) ∈ l := by
  induction l with
  | nil => simp [List.lookup] at h
  | cons kv rest ih =>
    rw [List.lookup_cons] at h
    cases hk : (a == kv.1) with
    | true =>
      rw [hk] at h
      have hb : kv.2 = b := by simpa using h
      have ha : a = kv.1 := beq_iff_eq.mp hk
      have hkv : kv = (a, b) := by
        rcases kv with ⟨k1, v1⟩
        simp only at hb ha
        rw [ha, hb]
      rw [← hkv]
      simp
    | false =>
      rw [hk] at h
      exact List.mem_cons.mpr (Or.inr (ih (by simpa using h)))

/-- Helper: under a valid definition (registered node types, connections
naming defined nodes) the node-creation and wiring phases of `compile`
succeed, giving a graph whose k-th node carries the definition of the
k-th id in sorted order, whose output node is still the initial 0 and
whose `eval_order` and `id_to_index` are empty; `compile`'s remaining
work is exactly the output-node selection on that graph. -/
theorem compile_cases (d : GraphDef) (registry : NodeRegistry) (mb mv : Nat)
    (hreg : ∀ kv ∈ d.nodes, (registry kv.2.type_id).isSome)
    (hconn : ∀ c ∈ d.connections, c.source_node ∈ d.nodes.map Prod.fst ∧
      c.dest_node ∈ d.nodes.map Prod.fst) :
    ∃ g2 : Graph,
      g2.nodes.length = d.nodes.length ∧
      (∀ k (hk : k < ((d.nodes.map Prod.fst).mergeSort (fun a b => decide (a ≤ b))).length),
        ∃ nd : NodeDef,
          d.nodes.lookup (((d.nodes.map Prod.fst).mergeSort
            (fun a b => decide (a ≤ b))).get ⟨k, hk⟩) = some nd ∧
          (g2.nodes[k]?).map GraphNode.typeId = some nd.type_id ∧
          (g2.nodes[k]?).map GraphNode.params = some nd.param_values) ∧
      g2.output_node = 0 ∧ g2.eval_order = [] ∧ g2.id_to_index = [] ∧
      (∀ oid : Nat, d.output_node = some oid →
        ((((d.nodes.map Prod.fst).mergeSort (fun a b => decide (a ≤ b))).zip
            (List.range' 0 ((d.nodes.map Prod.fst).mergeSort
              (fun a b => decide (a ≤ b))).length)).lookup oid = none →
          compile d registry mb mv = .ok g2) ∧
        (∀ oi : Nat, (((d.nodes.map Prod.fst).mergeSort (fun a b => decide (a ≤ b))).zip
            (List.range' 0 ((d.nodes.map Prod.fst).mergeSort
              (fun a b => decide (a ≤ b))).length)).lookup oid = some oi →
          compile d registry mb mv = .ok { g2 with output_node := oi })) ∧
      (d.output_node = none →
        (d.nodes = [] → compile d registry mb mv = .ok g2) ∧
        (d.nodes ≠ [] → compile d registry mb mv =
          .ok { g2 with output_node := g2.nodes.length - 1 })) := by
  have hids : ∀ id ∈ (d.nodes.map Prod.fst).mergeSort (fun a b => decide (a ≤ b)),
      ∃ nd, d.nodes.lookup id = some nd ∧ (registry nd.type_id).isSome := by
    intro id hid
    have hidk : id ∈ d.nodes.map Prod.fst := List.mem_mergeSort.mp hid
    rcases lookup_isSome_of_mem_keys hidk with ⟨nd, hnd⟩
    exact ⟨nd, hnd, hreg (id, nd) (mem_of_lookup_eq_some hnd)⟩
  rcases createNodes_ok d.nodes registry
      ((d.nodes.map Prod.fst).mergeSort (fun a b => decide (a ≤ b)))
      (Graph.new mb mv) [] hids with
    ⟨g1, hrun1, hlen1, hold1, hnew1, ho1, he1, hi1, hb1, hv1⟩
  have hrun1x : createNodes d.nodes registry
      ((d.nodes.map Prod.fst).mergeSort (fun a b => decide (a ≤ b)))
      (Graph.new mb mv) [] = .ok (g1,
        ((d.nodes.map Prod.fst).mergeSort (fun a b => decide (a ≤ b))).zip
          (List.range' 0 ((d.nodes.map Prod.fst).mergeSort
            (fun a b => decide (a ≤ b))).length)) := hrun1
  have hmapfst : ((((d.nodes.map Prod.fst).mergeSort (fun a b => decide (a ≤ b))).zip
      (List.range' 0 ((d.nodes.map Prod.fst).mergeSort
        (fun a b => decide (a ≤ b))).length)).map Prod.fst) =
      (d.nodes.map Prod.fst).mergeSort (fun a b => decide (a ≤ b)) :=
    List.map_fst_zip _ _ (by simp [List.length_range'])
  have hconn2 : ∀ c ∈ d.connections,
      (((((d.nodes.map Prod.fst).mergeSort (fun a b => decide (a ≤ b))).zip
        (List.range' 0 ((d.nodes.map Prod.fst).mergeSort
          (fun a b => decide (a ≤ b))).length)).lookup c.source_node).isSome) ∧
      (((((d.nodes.map Prod.fst).mergeSort (fun a b => decide (a ≤ b))).zip
        (List.range' 0 ((d.nodes.map Prod.fst).mergeSort
          (fun a b => decide (a ≤ b))).length)).lookup c.dest_node).isSome) := by
    intro c hc
    rcases hconn c hc with ⟨hs, hd⟩
    constructor
    · rcases lookup_isSome_of_mem_keys
        (by rw [hmapfst]; exact List.mem_mergeSort.mpr hs) with ⟨b, hb⟩
      rw [hb]; rfl
    · rcases lookup_isSome_of_mem_keys
        (by rw [hmapfst]; exact List.mem_mergeSort.mpr hd) with ⟨b, hb⟩
      rw [hb]; rfl
  rcases connectLoop_ok
      (((d.nodes.map Prod.fst).mergeSort (fun a b => decide (a ≤ b))).zip
        (List.range' 0 ((d.nodes.map Prod.fst).mergeSort
          (fun a b => decide (a ≤ b))).length))
      d.connections g1 [] hconn2 with
    ⟨g2, hrun2, hlen2, hty2, hpar2, ho2, he2, hi2⟩
  have hcomp : compile d registry mb mv =
      match d.output_node with
      | some output_id =>
        match ((((d.nodes.map Prod.fst).mergeSort (fun a b => decide (a ≤ b))).zip
            (List.range' 0 ((d.nodes.map Prod.fst).mergeSort
              (fun a b => decide (a ≤ b))).length)).lookup output_id) with
        | some output_idx => .ok { g2 with output_node := output_idx }
        | none => .ok g2
      | none =>
        if ((d.nodes.map Prod.fst).mergeSort (fun a b => decide (a ≤ b))).isEmpty
        then .ok g2
        else .ok { g2 with output_node := g2.nodes.length - 1 } := by
    unfold compile
    simp only [hrun1x, hrun2]
  refine ⟨g2, ?_, ?_, by rw [ho2, ho1]; rfl, by rw [he2, he1]; rfl,
    by rw [hi2, hi1]; rfl, ?_, ?_⟩
  · rw [hlen2, hlen1]
    show 0 + ((d.nodes.map Prod.fst).mergeSort (fun a b => decide (a ≤ b))).length =
      d.nodes.length
    rw [Nat.zero_add, List.length_mergeSort, List.length_map]
  · intro k hk
    rcases hnew1 k hk with ⟨nd, fac, hnd, hfac, hget⟩
    have hget2 : g1.nodes[k]? =
        some (GraphNode.mk nd.type_id fac.perVoice [] nd.param_values []) := by
      rw [show (Graph.new mb mv).nodes.length + k = k from by
        show 0 + k = k; rw [Nat.zero_add]] at hget
      exact hget
    refine ⟨nd, hnd, ?_, ?_⟩
    · rw [hty2 k, hget2]; rfl
    · rw [hpar2 k, hget2]; rfl
  · intro oid hout
    constructor
    · intro hl
      rw [hcomp, hout]
      show (match ((((d.nodes.map Prod.fst).mergeSort (fun a b => decide (a ≤ b))).zip
          (List.range' 0 ((d.nodes.map Prod.fst).mergeSort
            (fun a b => decide (a ≤ b))).length)).lookup oid) with
        | some output_idx => Except.ok { g2 with output_node := output_idx }
        | none => Except.ok g2) = Except.ok g2
      rw [hl]
    · intro oi hl
      rw [hcomp, hout]
      show (match ((((d.nodes.map Prod.fst).mergeSort (fun a b => decide (a ≤ b))).zip
          (List.range' 0 ((d.nodes.map Prod.fst).mergeSort
            (fun a b => decide (a ≤ b))).length)).lookup oid) with
        | some output_idx => Except.ok { g2 with output_node := output_idx }
        | none => Except.ok g2) = Except.ok { g2 with output_node := oi }
      rw [hl]
  · intro hout
    constructor
    · intro hnil
      have hempty : ((d.nodes.map Prod.fst).mergeSort
          (fun a b => decide (a ≤ b))).isEmpty = true := by
        rw [hnil]
        simp [List.mergeSort_nil]
      rw [hcomp, hout]
      show (if ((d.nodes.map Prod.fst).mergeSort (fun a b => decide (a ≤ b))).isEmpty
        then Except.ok g2
        else Except.ok { g2 with output_node := g2.nodes.length - 1 }) = Except.ok g2
      rw [hempty]
      rfl
    · intro hne
      have hempty : ((d.nodes.map Prod.fst).mergeSort
          (fun a b => decide (a ≤ b))).isEmpty = false := by
        rw [List.isEmpty_eq_false]
        intro habs
        have hlenz : ((d.nodes.map Prod.fst).mergeSort
            (fun a b => decide (a ≤ b))).length = d.nodes.length := by
          rw [List.length_mergeSort, List.length_map]
        rw [habs] at hlenz
        exact hne (List.length_eq_zero.mp hlenz.symm)
      rw [hcomp, hout]
      show (if ((d.nodes.map Prod.fst).mergeSort (fun a b => decide (a ≤ b))).isEmpty
        then Except.ok g2
        else Except.ok { g2 with output_node := g2.nodes.length - 1 }) =
        Except.ok { g2 with output_node := g2.nodes.length - 1 }
      rw [hempty]
      rfl

/-- C7 (amended): for a graph definition with distinct node ids, all
node types registered and connections naming only defined nodes,
`compile` succeeds and creates one node per definition by iterating the
node ids in ascending order — the k-th node of the result carries the
type id and parameter values of the k-th smallest id's definition — and
sets `output_node` to the index the sorted order gives
`GraphDef.output_node`'s id when that id is present, and to the last
added node when no output id is given and nodes exist.  Contrary to the
original claim, `compile` takes no sample rate and never calls
`Graph.prepare`: the returned graph's `eval_order` and `id_to_index`
are still empty. -/
theorem compile_spec (d : GraphDef) (registry : NodeRegistry) (mb mv : Nat)
    (hkeys : (d.nodes.map Prod.fst).Nodup)
    (hreg : ∀ kv ∈ d.nodes, (registry kv.2.type_id).isSome)
    (hconn : ∀ c ∈ d.connections, c.source_node ∈ d.nodes.map Prod.fst ∧
      c.dest_node ∈ d.nodes.map Prod.fst) :
    ∃ g : Graph, compile d registry mb mv = .ok g ∧
      g.nodes.length = d.nodes.length ∧
      (((d.nodes.map Prod.fst).mergeSort (fun a b => decide (a ≤ b))).Pairwise
        (fun a b => a ≤ b) ∧
       ((d.nodes.map Prod.fst).mergeSort (fun a b => decide (a ≤ b))).Perm
        (d.nodes.map Prod.fst)) ∧
      (∀ k (hk : k < ((d.nodes.map Prod.fst).mergeSort (fun a b => decide (a ≤ b))).length),
        ∃ nd : NodeDef,
          d.nodes.lookup (((d.nodes.map Prod.fst).mergeSort
            (fun a b => decide (a ≤ b))).get ⟨k, hk⟩) = some nd ∧
          (g.nodes[k]?).map GraphNode.typeId = some nd.type_id ∧
          (g.nodes[k]?).map GraphNode.params = some nd.param_values) ∧
      (∀ (oid k : Nat)
        (hk : k < ((d.nodes.map Prod.fst).mergeSort (fun a b => decide (a ≤ b))).length),
        d.output_node = some oid →
        ((d.nodes.map Prod.fst).mergeSort (fun a b => decide (a ≤ b))).get ⟨k, hk⟩ = oid →
        g.output_node = k) ∧
      (d.output_node = none → d.nodes ≠ [] → g.output_node = g.nodes.length - 1) ∧
      g.eval_order = [] ∧
      g.id_to_index = [] := by
  rcases compile_cases d registry mb mv hreg hconn with
    ⟨g2, hg2len, hnodes, ho0, he0, hi0, hsome, hnone⟩
  have hnodup : ((d.nodes.map Prod.fst).mergeSort (fun a b => decide (a ≤ b))).Nodup :=
    (List.mergeSort_perm (d.nodes.map Prod.fst) (fun a b => decide (a ≤ b))).nodup_iff.mpr
      hkeys
  have hsort : ((d.nodes.map Prod.fst).mergeSort (fun a b => decide (a ≤ b))).Pairwise
      (fun a b => a ≤ b) ∧
      ((d.nodes.map Prod.fst).mergeSort (fun a b => decide (a ≤ b))).Perm
        (d.nodes.map Prod.fst) := by
    constructor
    · have htrans : ∀ a b c : Nat, decide (a ≤ b) = true → decide (b ≤ c) = true →
          decide (a ≤ c) = true := by
        intro a b c hab hbc
        simp only [decide_eq_true_eq] at hab hbc ⊢
        omega
      have htotal : ∀ a b : Nat, (decide (a ≤ b) || decide (b ≤ a)) = true := by
        intro a b
        simp only [Bool.or_eq_true, decide_eq_true_eq]
        omega
      have hs := List.sorted_mergeSort htrans htotal (d.nodes.map Prod.fst)
      exact hs.imp (fun h => by simpa using h)
    · exact List.mergeSort_perm _ _
  cases hout : d.output_node with
  | some oid =>
    rcases hsome oid hout with ⟨hmiss, hhit⟩
    cases hl : ((((d.nodes.map Prod.fst).mergeSort (fun a b => decide (a ≤ b))).zip
        (List.range' 0 ((d.nodes.map Prod.fst).mergeSort
          (fun a b => decide (a ≤ b))).length)).lookup oid) with
    | none =>
      refine ⟨g2, hmiss hl, hg2len, hsort, hnodes, ?_, ?_, he0, hi0⟩
      · intro oid2 k hk hout2 hget
        have hoid2 : oid2 = oid := (Option.some.inj hout2).symm
        have hlk := lookup_zip_range' 0 k hk hnodup
        rw [hget, hoid2] at hlk
        rw [hl] at hlk
        exact absurd hlk (by simp)
      · intro habs
        exact absurd habs (by simp)
    | some oi =>
      refine ⟨{ g2 with output_node := oi }, hhit oi hl, hg2len, hsort, hnodes, ?_, ?_,
        he0, hi0⟩
      · intro oid2 k hk hout2 hget
        have hoid2 : oid2 = oid := (Option.some.inj hout2).symm
        have hlk := lookup_zip_range' 0 k hk hnodup
        rw [hget, hoid2] at hlk
        rw [hl] at hlk
        have : oi = 0 + k := Option.some.inj hlk
        show oi = k
        omega
      · intro habs
        exact absurd habs (by simp)
  | none =>
    rcases hnone hout with ⟨hnil, hne⟩
    by_cases hd : d.nodes = []
    · refine ⟨g2, hnil hd, hg2len, hsort, hnodes, ?_, ?_, he0, hi0⟩
      · intro oid2 k hk hout2 hget
        exact absurd hout2 (by simp)
      · intro hnonehyp habs
        exact absurd hd habs
    · refine ⟨{ g2 with output_node := g2.nodes.length - 1 }, hne hd, hg2len, hsort,
        hnodes, ?_, fun hnonehyp habs => rfl, he0, hi0⟩
      intro oid2 k hk hout2 hget
      exact absurd hout2 (by simp)

/-- C7, refuting the original claim's final step: `compile` returns
without preparing the graph.  The compiled two-node patch comes back
with an empty `eval_order`, although `Graph.prepare` on that same graph
computes the order `[0, 1]` — the source `compile` has no sample-rate
parameter and contains no call to `prepare`; its callers prepare the
graph themselves. -/
theorem compile_does_not_prepare :
    (compile cdef creg 16 2).map Graph.eval_order = .ok [] ∧
    (compile cdef creg 16 2).map (fun g => (g.prepare).eval_order) = .ok [0, 1] ∧
    ([] : List Nat) ≠ [0, 1] := by
  have hms : ((cdef.nodes.map Prod.fst).mergeSort (fun a b => decide (a ≤ b))) = [0, 1] :=
    List.mergeSort_eq_self (by decide)
  refine ⟨?_, ?_, by decide⟩
  · simp only [compile, hms]
    rfl
  · simp only [compile, hms]
    rfl

/-- C7, witness: the amended compilation statement evaluated on the
concrete two-node patch. -/
theorem compile_spec_witness :
    ∃ g : Graph, compile cdef creg 16 2 = .ok g ∧
      g.nodes.length = cdef.nodes.length ∧
      (((cdef.nodes.map Prod.fst).mergeSort (fun a b => decide (a ≤ b))).Pairwise
        (fun a b => a ≤ b) ∧
       ((cdef.nodes.map Prod.fst).mergeSort (fun a b => decide (a ≤ b))).Perm
        (cdef.nodes.map Prod.fst)) ∧
      (∀ k (hk : k < ((cdef.nodes.map Prod.fst).mergeSort
          (fun a b => decide (a ≤ b))).length),
        ∃ nd : NodeDef,
          cdef.nodes.lookup (((cdef.nodes.map Prod.fst).mergeSort
            (fun a b => decide (a ≤ b))).get ⟨k, hk⟩) = some nd ∧
          (g.nodes[k]?).map GraphNode.typeId = some nd.type_id ∧
          (g.nodes[k]?).map GraphNode.params = some nd.param_values) ∧
      (∀ (oid k : Nat)
        (hk : k < ((cdef.nodes.map Prod.fst).mergeSort
          (fun a b => decide (a ≤ b))).length),
        cdef.output_node = some oid →
        ((cdef.nodes.map Prod.fst).mergeSort (fun a b => decide (a ≤ b))).get ⟨k, hk⟩ =
          oid →
        g.output_node = k) ∧
      (cdef.output_node = none → cdef.nodes ≠ [] → g.output_node = g.nodes.length - 1) ∧
      g.eval_order = [] ∧
      g.id_to_index = [] :=
  compile_spec cdef creg 16 2 (by decide) (by decide) (by decide)

/-- C10: when `GraphDef.output_node` names an id that is not one of the
definition's nodes, `compile` still succeeds — no error is reported —
and the resulting graph's `output_node` keeps its initial value 0, the
first added node; it does not fall back to the last added node. -/
theorem compile_unknown_output_node_zero (d : GraphDef) (registry : NodeRegistry)
    (mb mv : Nat) (oid : Nat)
    (hreg : ∀ kv ∈ d.nodes, (registry kv.2.type_id).isSome)
    (hconn : ∀ c ∈ d.connections, c.source_node ∈ d.nodes.map Prod.fst ∧
      c.dest_node ∈ d.nodes.map Prod.fst)
    (hout : d.output_node = some oid)
    (hnot : oid ∉ d.nodes.map Prod.fst) :
    ∃ g : Graph, compile d registry mb mv = .ok g ∧ g.output_node = 0 := by
  rcases compile_cases d registry mb mv hreg hconn with
    ⟨g2, hg2len, hnodes, ho0, he0, hi0, hsome, hnone⟩
  rcases hsome oid hout with ⟨hmiss, hhit⟩
  have hnots : oid ∉ ((d.nodes.map Prod.fst).mergeSort (fun a b => decide (a ≤ b))) :=
    fun habs => hnot (List.mem_mergeSort.mp habs)
  have hl : ((((d.nodes.map Prod.fst).mergeSort (fun a b => decide (a ≤ b))).zip
      (List.range' 0 ((d.nodes.map Prod.fst).mergeSort
        (fun a b => decide (a ≤ b))).length)).lookup oid) = none := by
    apply lookup_eq_none_of_not_mem_keys
    rw [List.map_fst_zip
      ((d.nodes.map Prod.fst).mergeSort (fun a b => decide (a ≤ b)))
      (List.range' 0 ((d.nodes.map Prod.fst).mergeSort
        (fun a b => decide (a ≤ b))).length)
      (by simp [List.length_range'])]
    exact hnots
  exact ⟨g2, hmiss hl, ho0⟩

/-- C10, witness: the two-node patch with its declared output id changed
to the undefined id 5 still compiles, and the output node stays 0. -/
theorem compile_unknown_output_node_zero_witness :
    ∃ g : Graph,
      compile { cdef with output_node := some 5 } creg 16 2 = .ok g ∧
      g.output_node = 0 :=
  compile_unknown_output_node_zero { cdef with output_node := some 5 } creg 16 2 5
    (by decide) (by decide) rfl (by decide)
